import Mathlib

/-!
# Verification of the bettensor scoring core

Shallow embedding of `bettensor/validator/utils/scoring/scoring.py` and
`bettensor/validator/utils/scoring/entropy_system.py`.

Modelling conventions:
* IEEE-754 doubles are idealised as exact scalars.  The scoring arrays use `ℚ`
  (every float is a rational, and all operations the claims depend on are field
  operations and comparisons).  The entropy-contribution arithmetic uses `ℝ`
  because the source applies `** 0.5` (square root) to an arbitrary ratio.
* `np.sqrt` / `np.std` inside the Sortino calculator are abstracted by an
  explicit function parameter `sq : ℚ → ℚ`; IEEE `sqrt` restricted to doubles
  is literally such a rational-to-rational map, and every theorem below is
  proved for all such maps.
* NumPy arrays indexed by miner/day become functions `ℕ → ℚ` / `ℕ → ℕ → ℚ`
  updated pointwise; Python dicts become association lists (insertion order);
  Python sets of UIDs become `Finset ℕ`.
* Calendar dates are integers counting days; entropy-system timestamps are
  integers counting seconds; `timedelta(days=1)` is 86400 seconds.
* The wall-clock reads (`datetime.now`) are threaded as an explicit `now`
  argument.
-/

set_option allowUnsafeReducibility true
attribute [semireducible] Rat.add Rat.mul Rat.div Rat.sub Rat.neg Rat.inv Rat.normalize Rat.blt

namespace Bettensor

/-- Pointwise update of a one-dimensional array-as-function
(`arr[i] = v` on a NumPy vector). -/
def upd1 {β : Type} (f : ℕ → β) (i : ℕ) (v : β) : ℕ → β :=
  fun x => if x = i then v else f x

/-- Column update of a two-dimensional array-as-function
(`arr[:, j] = g` on a NumPy matrix indexed `[miner, day]`). -/
def setCol {β : Type} (f : ℕ → ℕ → β) (j : ℕ) (g : ℕ → β) : ℕ → ℕ → β :=
  fun x y => if y = j then g x else f x y

/-- Single-cell update of a two-dimensional array-as-function. -/
def setCell {β : Type} (f : ℕ → ℕ → β) (i j : ℕ) (v : β) : ℕ → ℕ → β :=
  fun x y => if x = i ∧ y = j then v else f x y

/-- Stable insertion into a sorted list.  `bef a b = true` means `a` may be
placed before `b`; with `bef a b := key a ≤ key b` this yields the stable
ascending sort of Python `sorted`, with `bef a b := key b ≤ key a` the stable
descending sort of `sorted(..., reverse=True)`. -/
def insSorted {β : Type} (bef : β → β → Bool) (x : β) : List β → List β
  | [] => [x]
  | y :: ys => if bef x y then x :: y :: ys else y :: insSorted bef x ys

/-- Stable insertion sort (model of Python `sorted`, which is stable). -/
def stableSort {β : Type} (bef : β → β → Bool) : List β → List β
  | [] => []
  | x :: xs => insSorted bef x (stableSort bef xs)

theorem insSorted_perm {β : Type} (bef : β → β → Bool) (x : β) (l : List β) :
    (insSorted bef x l).Perm (x :: l) := by
  induction l with
  | nil => simp [insSorted]
  | cons y ys ih =>
    by_cases h : bef x y = true
    · simp [insSorted, h]
    · simp only [insSorted, h, if_false]
      exact ((ih.cons y).trans (List.Perm.swap x y ys))

theorem stableSort_perm {β : Type} (bef : β → β → Bool) (l : List β) :
    (stableSort bef l).Perm l := by
  induction l with
  | nil => simp [stableSort]
  | cons x xs ih =>
    exact (insSorted_perm bef x (stableSort bef xs)).trans (ih.cons x)

theorem mem_stableSort {β : Type} (bef : β → β → Bool) (l : List β) (a : β) :
    a ∈ stableSort bef l ↔ a ∈ l :=
  (stableSort_perm bef l).mem_iff

/-- Dictionary lookup on an association list (Python `d[k]` / `d.get(k)`). -/
def alookup {β : Type} (k : ℕ) : List (ℕ × β) → Option β
  | [] => none
  | p :: ps => if k = p.1 then some p.2 else alookup k ps

/-- Association-list update of an existing key (Python dict item assignment;
assignments to a key that is absent do not occur at the call sites that use
this helper, because the source guards them). -/
def aupdate {β : Type} (k : ℕ) (g : β → β) (l : List (ℕ × β)) : List (ℕ × β) :=
  l.map (fun p => if p.1 = k then (p.1, g p.2) else p)

theorem alookup_aupdate_ne {β : Type} (k k' : ℕ) (g : β → β) (l : List (ℕ × β))
    (h : k' ≠ k) : alookup k' (aupdate k g l) = alookup k' l := by
  induction l with
  | nil => rfl
  | cons p ps ih =>
    obtain ⟨a, b⟩ := p
    by_cases hp : a = k
    · subst hp
      simp [aupdate, alookup, h] at ih ⊢
      exact ih
    · by_cases hk' : k' = a
      · simp [aupdate, alookup, hp, hk']
      · simp only [aupdate, List.map_cons, if_neg hp, alookup, if_neg hk'] at ih ⊢
        simpa [aupdate] using ih

theorem alookup_append_of_ne {β : Type} (k a : ℕ) (b : β) (l : List (ℕ × β))
    (h : k ≠ a) : alookup k (l ++ [(a, b)]) = alookup k l := by
  induction l with
  | nil => simp [alookup, h]
  | cons p ps ih =>
    by_cases hk : k = p.1
    · simp [alookup, hk]
    · simp only [List.cons_append, alookup, if_neg hk]
      exact ih

/-! ## Entropy system: data model (`entropy_system.py`) -/

/-- One element of `game_pools[game_id][outcome]["predictions"]`.
`prediction_id` is `Option` because `load_state` reconstructs entries without
that key (see C8). -/
structure PoolEntry (α : Type) where
  prediction_id : Option ℕ
  miner_uid : ℕ
  odds : α
  wager : α
  prediction_date : ℤ
  entropy_contribution : α
deriving DecidableEq

/-- One outcome pool: `{"predictions": [...], "entropy_score": s}`. -/
structure Pool (α : Type) where
  predictions : List (PoolEntry α)
  entropy_score : α
deriving DecidableEq

/-- The in-memory state of `EntropySystem`.  Dictionaries are association
lists in insertion order; `closed_games` (a Python set of ints) is a
duplicate-free list. -/
structure EntropyState (α : Type) where
  num_miners : ℕ
  max_days : ℕ
  current_day : ℕ
  ebdr_scores : List (List α)
  game_outcome_entropies : List (ℕ × List (ℕ × α))
  prediction_counts : List (ℕ × List (ℕ × α))
  game_pools : List (ℕ × List (ℕ × Pool α))
  miner_predictions : List (ℕ × List (ℕ × List α))
  closed_games : List ℕ
  game_close_times : List (ℕ × ℤ)
deriving DecidableEq

/-- `self.epsilon = 1e-8` of the entropy system, as a real. -/
noncomputable def epsR : ℝ := 1 / 100000000

/-- The predictions of `game_pools[game_id][predicted_outcome]`; the source
indexes the dictionaries directly (the callers guard existence), so a missing
key defaults to an empty pool here. -/
def poolPredictionsAt {α : Type} [LinearOrderedField α]
    (es : EntropyState α) (game_id predicted_outcome : ℕ) :
    List (PoolEntry α) :=
  (((alookup predicted_outcome ((alookup game_id es.game_pools).getD [])).getD ⟨[], 0⟩)).predictions

/-- `EntropySystem.calculate_prediction_similarity`.  Returns 0.0 for an empty
pool (early return); otherwise combines a time-based and a wager-based
similarity computed against the entries of *other* miners, each defaulting to
1.0 when no such entry exists. -/
noncomputable def calculate_prediction_similarity (es : EntropyState ℝ)
    (game_id predicted_outcome miner_uid : ℕ) (predicted_odds wager : ℝ)
    (prediction_date : ℤ) : ℝ :=
  match poolPredictionsAt es game_id predicted_outcome with
  | [] => 0
  | p :: ps =>
    let others := (p :: ps).filter (fun e => e.miner_uid ≠ miner_uid)
    let tsim : ℝ :=
      match others.map (fun e => e.prediction_date) with
      | [] => 1
      | t0 :: ts =>
        let earliest := ts.foldl min t0
        let latest := ts.foldl max t0
        let timeRange : ℝ := ((latest - earliest : ℤ) : ℝ) + epsR
        1 - |((prediction_date - earliest : ℤ) : ℝ)| / timeRange
    let wsim : ℝ :=
      match others.map (fun e => e.wager) with
      | [] => 1
      | w0 :: ws =>
        let mn := ws.foldl min w0
        let mx := ws.foldl max w0
        let wagerRange := mx - mn + epsR
        1 - |wager - mn| / wagerRange
    (tsim + wsim) / 2

/-- `EntropySystem.calculate_contrarian_component`: 0.5 when the game has no
predictions at all, else `sqrt(clamp01(1 - outcome_ratio)) - 0.5`. -/
noncomputable def calculate_contrarian_component (es : EntropyState ℝ)
    (game_id predicted_outcome : ℕ) : ℝ :=
  let ops := (alookup game_id es.game_pools).getD []
  let total := (ops.map (fun p => p.2.predictions.length)).sum
  if total = 0 then 1 / 2
  else
    let outcome_predictions := ((alookup predicted_outcome ops).getD ⟨[], 0⟩).predictions.length
    let outcome_ratio : ℝ := (outcome_predictions : ℝ) / (total : ℝ)
    let contrarian_score := max 0 (min 1 (1 - outcome_ratio))
    Real.sqrt contrarian_score - 1 / 2

/-- `EntropySystem.calculate_entropy_contribution`:
`clamp(0.6 * similarity + 0.4 * contrarian, -1, 1)`. -/
noncomputable def calculate_entropy_contribution (es : EntropyState ℝ)
    (game_id predicted_outcome miner_uid : ℕ) (predicted_odds wager : ℝ)
    (prediction_date : ℤ) : ℝ :=
  let s := calculate_prediction_similarity es game_id predicted_outcome miner_uid
      predicted_odds wager prediction_date
  let c := calculate_contrarian_component es game_id predicted_outcome
  max (min ((6 / 10) * s + (4 / 10) * c) 1) (-1)

/-- `EntropySystem.add_prediction`.  Rejected inputs (missing game, missing
outcome, closed game) leave the state unchanged; otherwise the entry is
appended to the target pool with the computed entropy contribution.
(The trailing `self.save_state()` is I/O and is not part of the state
transition.) -/
noncomputable def add_prediction (es : EntropyState ℝ)
    (prediction_id miner_uid game_id predicted_outcome : ℕ)
    (wager predicted_odds : ℝ) (prediction_date : ℤ) : EntropyState ℝ :=
  match alookup game_id es.game_pools with
  | none => es
  | some ops =>
    match alookup predicted_outcome ops with
    | none => es
    | some _ =>
      if game_id ∈ es.closed_games then es
      else
        let contrib := calculate_entropy_contribution es game_id predicted_outcome
            miner_uid predicted_odds wager prediction_date
        let entry : PoolEntry ℝ :=
          ⟨some prediction_id, miner_uid, predicted_odds, wager, prediction_date, contrib⟩
        { es with
          game_pools := aupdate game_id
            (fun ops' => aupdate predicted_outcome
              (fun pool => { pool with predictions := pool.predictions ++ [entry] }) ops')
            es.game_pools }

/-- Membership of a pool entry somewhere in the state's game pools. -/
def entryMem {α : Type} (es : EntropyState α) (e : PoolEntry α) : Prop :=
  ∃ g ops o pool, (g, ops) ∈ es.game_pools ∧ (o, pool) ∈ ops ∧ e ∈ pool.predictions

/-- `EntropySystem.calculate_initial_entropy`:
`max(eps, -p * log2(p + eps))` with `p = clamp01(1 / (odds + eps))`;
returns 0 for non-positive odds. -/
noncomputable def calculate_initial_entropy (initial_odds : ℝ) : ℝ :=
  if initial_odds ≤ 0 then 0
  else
    let prob := max 0 (min 1 (1 / (initial_odds + epsR)))
    max (-prob * Real.logb 2 (prob + epsR)) epsR

/-- `EntropySystem.add_new_game`: rejects an existing game; a 3-outcome odds
list whose third entry is 0 yields 2 outcomes, otherwise one outcome per odds
entry; each outcome pool starts with the initial entropy of its odds. -/
noncomputable def add_new_game (es : EntropyState ℝ) (game_id : ℕ)
    (odds : List ℝ) : EntropyState ℝ :=
  match alookup game_id es.game_pools with
  | some _ => es
  | none =>
    let num_outcomes := if odds.length = 3 ∧ odds.getD 2 0 = 0 then 2 else odds.length
    let pools := (List.range num_outcomes).map
      (fun i => (i, (⟨[], calculate_initial_entropy (odds.getD i 0)⟩ : Pool ℝ)))
    { es with game_pools := es.game_pools ++ [(game_id, pools)] }

/-- `EntropySystem.close_game`: marks an existing, not-yet-closed game as
closed at wall-clock time `now` (an idempotent warning otherwise). -/
def close_game {α : Type} (now : ℤ) (es : EntropyState α) (game_id : ℕ) :
    EntropyState α :=
  match alookup game_id es.game_pools with
  | none => es
  | some _ =>
    if game_id ∈ es.closed_games then es
    else { es with
           closed_games := es.closed_games ++ [game_id],
           game_close_times := es.game_close_times.filter (fun p => p.1 ≠ game_id)
             ++ [(game_id, now)] }

/-- The body of the sweep in `reset_predictions_for_closed_games` for one
closed game: if its recorded close time is more than one day (86400 s) before
`now`, clear every outcome pool of the game (`predictions.clear()`,
`entropy_score = 0.0`), drop it from the closed set and delete its close time.
`self.game_pools` is a `defaultdict`, so indexing a game that has no pools
inserts an empty pool dictionary for it. -/
def sweepStep {α : Type} [LinearOrderedField α] (now : ℤ) (st : EntropyState α)
    (game_id : ℕ) : EntropyState α :=
  match alookup game_id st.game_close_times with
  | none => st
  | some close_time =>
    if 86400 < now - close_time then
      let pools' :=
        match alookup game_id st.game_pools with
        | some _ => aupdate game_id
            (fun ops => ops.map (fun op => (op.1, (⟨[], 0⟩ : Pool α)))) st.game_pools
        | none => st.game_pools ++ [(game_id, [])]
      { st with
        game_pools := pools',
        closed_games := st.closed_games.erase game_id,
        game_close_times := st.game_close_times.filter (fun p => p.1 ≠ game_id) }
    else st

/-- `EntropySystem.reset_predictions_for_closed_games`: iterates over a
snapshot of the closed-game set and applies `sweepStep`. -/
def reset_predictions_for_closed_games {α : Type} [LinearOrderedField α]
    (now : ℤ) (es : EntropyState α) : EntropyState α :=
  es.closed_games.foldl (sweepStep now) es

/-- The accumulation loop of `get_current_ebdr_scores`: for every listed game
with pools, add every entry's `entropy_contribution` to the slot of its
miner. -/
def accumulateEbdr {α : Type} [LinearOrderedField α] (es : EntropyState α)
    (game_ids : List ℕ) : ℕ → α :=
  game_ids.foldl
    (fun v game_id =>
      match alookup game_id es.game_pools with
      | none => v
      | some ops => ops.foldl
          (fun v op => op.2.predictions.foldl
            (fun v e => upd1 v e.miner_uid (v e.miner_uid + e.entropy_contribution)) v)
          v)
    (fun _ => 0)

/-- `np.max` over the score vector of length `num_miners`.  The fold is seeded
with 0, which leaves the only use (`if max_score > 0`) and the division branch
unchanged with respect to NumPy's max. -/
def vecMax {α : Type} [LinearOrderedField α] (num_miners : ℕ) (v : ℕ → α) : α :=
  (List.range num_miners).foldl (fun a i => max a (v i)) 0

/-- `EntropySystem.get_current_ebdr_scores`: accumulate all listed pool
entries into a per-miner vector, normalise by the maximum when positive, then
run the reset sweep, and return the (pre-sweep) vector together with the
swept state.  `current_date` and `current_day` are logged only; the sweep
reads the wall clock, passed here as `now`. -/
def get_current_ebdr_scores {α : Type} [LinearOrderedField α] (now : ℤ)
    (current_date : ℤ) (current_day : ℕ) (game_ids : List ℕ)
    (es : EntropyState α) : (ℕ → α) × EntropyState α :=
  let raw := accumulateEbdr es game_ids
  let max_score := vecMax es.num_miners raw
  let scores := if 0 < max_score then fun u => raw u / max_score else raw
  (scores, reset_predictions_for_closed_games now es)

/-! ## Entropy system: persistence (`save_state` / `load_state`) -/

/-- A serialised pool entry.  `save_state` writes only these five keys:
`prediction_id` is **not** serialised. -/
structure SavedEntry (α : Type) where
  miner_uid : ℕ
  odds : α
  wager : α
  prediction_date : ℤ
  entropy_contribution : α
deriving DecidableEq

/-- A serialised pool. -/
structure SavedPool (α : Type) where
  predictions : List (SavedEntry α)
  entropy_score : α
deriving DecidableEq

/-- The JSON snapshot written by `EntropySystem.save_state`.  Keys are
stringified integers in the file; `str`/`int` round-trip exactly, so they are
kept as numbers here. -/
structure SavedState (α : Type) where
  current_day : ℕ
  game_outcome_entropies : List (ℕ × List (ℕ × α))
  prediction_counts : List (ℕ × List (ℕ × α))
  ebdr_scores : List (List α)
  game_pools : List (ℕ × List (ℕ × SavedPool α))
  miner_predictions : List (ℕ × List (ℕ × List α))
  closed_games : List ℕ
  game_close_times : List (ℕ × ℤ)
deriving DecidableEq

/-- `EntropySystem.save_state` (the JSON payload; the file write is I/O). -/
def save_state {α : Type} (es : EntropyState α) : SavedState α :=
  { current_day := es.current_day,
    game_outcome_entropies := es.game_outcome_entropies,
    prediction_counts := es.prediction_counts,
    ebdr_scores := es.ebdr_scores,
    game_pools := es.game_pools.map (fun gp =>
      (gp.1, gp.2.map (fun op =>
        (op.1, ⟨op.2.predictions.map (fun e =>
                  ⟨e.miner_uid, e.odds, e.wager, e.prediction_date,
                   e.entropy_contribution⟩),
                op.2.entropy_score⟩)))),
    miner_predictions := es.miner_predictions,
    closed_games := es.closed_games,
    game_close_times := es.game_close_times }

/-- `EntropySystem.load_state` applied to a parsed snapshot.  The
reconstructed pool entries carry no `prediction_id`.  Restoring
`miner_predictions` applies `float()` to each stored per-miner value, which is
a *list* in every snapshot `save_state` writes; `float(list)` raises
`TypeError`, which the source catches, leaving a partially-updated state it
calls fresh — modelled as `none`.  The error path therefore only stays away
when every per-day map is empty (which holds for every state this code can
produce, since nothing ever inserts into the inner maps). -/
def load_state {α : Type} (es : EntropyState α) (sv : SavedState α) :
    Option (EntropyState α) :=
  if sv.miner_predictions.all (fun p => p.2.isEmpty) then
    some { es with
      current_day := sv.current_day,
      game_outcome_entropies := sv.game_outcome_entropies,
      prediction_counts := sv.prediction_counts,
      ebdr_scores := sv.ebdr_scores,
      game_pools := sv.game_pools.map (fun gp =>
        (gp.1, gp.2.map (fun op =>
          (op.1, ⟨op.2.predictions.map (fun e =>
                    ⟨none, e.miner_uid, e.odds, e.wager, e.prediction_date,
                     e.entropy_contribution⟩),
                  op.2.entropy_score⟩)))),
      miner_predictions := sv.miner_predictions,
      closed_games := sv.closed_games,
      game_close_times := sv.game_close_times }
  else none

/-- Erase the `prediction_id` of every pool entry (what a save/load round trip
does to the pools, see C8). -/
def erase_prediction_ids {α : Type} (es : EntropyState α) : EntropyState α :=
  { es with
    game_pools := es.game_pools.map (fun gp =>
      (gp.1, gp.2.map (fun op =>
        (op.1, ⟨op.2.predictions.map (fun e => { e with prediction_id := none }),
                op.2.entropy_score⟩)))) }

/-! ## Scoring system: data model (`scoring.py`) -/

/-- One row of the prediction batch:
`(miner_uid, external_game_id, predicted_outcome, predicted_odds, payout,
wager)`. -/
structure PredRow where
  miner_uid : ℕ
  game_id : ℕ
  predicted_outcome : ℕ
  predicted_odds : ℚ
  payout : ℚ
  wager : ℚ
deriving DecidableEq

/-- The state of `ScoringSystem`.  Score matrices are `miner → day → value`;
the composite tensor is `miner → day → slice → value` with slice 0 the daily
composite and slices 1-5 the tier windows. -/
structure ScoringState where
  num_miners : ℕ
  max_days : ℕ
  current_day : ℕ
  current_date : ℤ
  reference_date : ℤ
  last_update_date : Option ℤ
  clv_scores : ℕ → ℕ → ℚ
  roi_scores : ℕ → ℕ → ℚ
  sortino_scores : ℕ → ℕ → ℚ
  amount_wagered : ℕ → ℕ → ℚ
  entropy_scores : ℕ → ℕ → ℚ
  tiers : ℕ → ℕ → ℕ
  composite_scores : ℕ → ℕ → ℕ → ℚ
  invalid_uids : Finset ℕ
  valid_uids : Finset ℕ
  init : Bool
  entropy_system : EntropyState ℚ

/-- `window` per tier value 0-6 (`self.tier_configs[t]["window"]`). -/
def tierWindow (t : ℕ) : ℕ := [0, 0, 3, 7, 15, 30, 45].getD t 0

/-- `min_wager` per tier value 0-6. -/
def tierMinWager (t : ℕ) : ℚ := [0, 0, 0, 4000, 10000, 20000, 35000].getD t 0

/-- `capacity` per tier value 0-6: `int(num_miners * frac)` with fractions
`1, 1, 1.0, 0.2, 0.2, 0.1, 0.05`, i.e. the floor of the exact product (this
agrees with the float computation at every `num_miners` instantiated below,
in particular at the default 256). -/
def tierCapacity (num_miners t : ℕ) : ℕ :=
  [num_miners, num_miners, num_miners,
   num_miners * 2 / 10, num_miners * 2 / 10,
   num_miners / 10, num_miners / 20].getD t 0

/-- `incentive` per tier value 0-6. -/
def tierIncentive (t : ℕ) : ℚ :=
  [0, 0, 1/10, 3/20, 1/5, 1/4, 3/10].getD t 0

/-- `ScoringSystem._get_cumulative_wager`: sum of `amount_wagered[miner, d]`
over the `window` most recent days ending at `current_day`, using the Python
slices of the source: a non-negative start slices `[start ..= current_day]`,
a negative start wraps as `row[start:]` (clamped at the front, exactly like a
Python negative slice index) plus `row[: current_day + 1]`. -/
def cumulative_wager (max_days current_day : ℕ) (wrow : ℕ → ℚ)
    (window : ℕ) : ℚ :=
  if window ≤ current_day + 1 then
    ∑ j in Finset.Icc (current_day + 1 - window) current_day, wrow j
  else
    (∑ j in Finset.Ico (max_days - (window - current_day - 1)) max_days, wrow j)
      + ∑ j in Finset.Icc 0 current_day, wrow j

/-- `ScoringSystem._meets_tier_requirements`: cumulative wager over the
tier's window reaches the tier's `min_wager`. -/
def meets_tier_requirements (max_days current_day : ℕ) (wag : ℕ → ℕ → ℚ)
    (miner tier : ℕ) : Bool :=
  decide (tierMinWager tier ≤
    cumulative_wager max_days current_day (wag miner) (tierWindow tier))

/-- `ScoringSystem._cascade_demotion`: drop the miner one tier (floored at 2
for valid miners, at 1 otherwise) and recurse while the landing tier's
requirements are still not met.  The tier column is a length-`num_miners`
list, mirroring the 1-D NumPy array `current_tiers`.  The recursion is
fuelled (7 is enough for every chain from tier 6 down whenever wagers are
non-negative, because tiers 1 and 2 have `min_wager = 0`); exhausted fuel
corresponds to the non-termination of the source on states with negative
cumulative wagers. -/
def cascade_demotion (valid_uids : Finset ℕ) (max_days current_day : ℕ)
    (wag : ℕ → ℕ → ℚ) (miner : ℕ) :
    ℕ → ℕ → List ℕ → List ℕ
  | 0, _, ct => ct
  | fuel + 1, current_tier, ct =>
    let new_tier := if miner ∈ valid_uids then max (current_tier - 1) 2
                    else max (current_tier - 1) 1
    let ct' := ct.set miner new_tier
    if meets_tier_requirements max_days current_day wag miner new_tier then ct'
    else cascade_demotion valid_uids max_days current_day wag miner fuel new_tier ct'

/-- Step 1 of `manage_tiers`: for tiers 6 down to 2, demote every member that
fails its tier requirements (the member snapshot is taken per tier, as
`np.where` does). -/
def demotionStep (num_miners max_days current_day : ℕ) (wag : ℕ → ℕ → ℚ)
    (valid_uids : Finset ℕ) (ct0 : List ℕ) : List ℕ :=
  [6, 5, 4, 3, 2].foldl
    (fun ct tier =>
      ((List.range num_miners).filter (fun m => ct.getD m 0 == tier)).foldl
        (fun ct' m =>
          if meets_tier_requirements max_days current_day wag m tier then ct'
          else cascade_demotion valid_uids max_days current_day wag m 7 tier ct')
        ct)
    ct0

/-- The promotion loop shared by `_promote_and_swap` and `_fill_empty_slots`:
assign tier `v` to every listed miner in order. -/
def promoteList (v : ℕ) (l : List ℕ) (ct : List ℕ) : List ℕ :=
  l.foldl (fun c m => c.set m v) ct

/-- The swap loop of `_promote_and_swap`: for each (candidate, incumbent)
pair, exchange their tiers (`tiers[p], tiers[d] = tiers[d], tiers[p]`). -/
def swapLoop (pairs : List (ℕ × ℕ)) (ct : List ℕ) : List ℕ :=
  pairs.foldl
    (fun c pd =>
      let a := c.getD pd.1 0
      let b := c.getD pd.2 0
      (c.set pd.1 b).set pd.2 a)
    ct

/-- Step 2 of `manage_tiers` (`_promote_and_swap`): for tiers 2-5, either
promote the best eligible members into open slots of the next tier, or, if
the next tier is full and non-empty, swap ascending-score candidates against
ascending-score incumbents until the first pair that fails
`candidate score > incumbent score and candidate meets next min_wager`. -/
def promoteSwapIter (num_miners max_days current_day : ℕ) (wag : ℕ → ℕ → ℚ)
    (cs : ℕ → ℕ → ℚ) (ct : List ℕ) (tier : ℕ) : List ℕ :=
      let current_tier_miners := (List.range num_miners).filter (fun m => ct.getD m 0 == tier)
      let next_tier_miners := (List.range num_miners).filter (fun m => ct.getD m 0 == tier + 1)
      let open_slots : ℤ := (tierCapacity num_miners (tier + 1) : ℤ) - next_tier_miners.length
      if 0 < open_slots then
        let eligible := current_tier_miners.filter
          (fun m => meets_tier_requirements max_days current_day wag m (tier + 1))
        let eligible_sorted := stableSort
          (fun a b => decide (cs b (tier - 1) ≤ cs a (tier - 1))) eligible
        promoteList (tier + 1) (eligible_sorted.take open_slots.toNat) ct
      else if 0 < next_tier_miners.length then
        let sorted_current := stableSort
          (fun a b => decide (cs a (tier - 1) ≤ cs b (tier - 1))) current_tier_miners
        let sorted_next := stableSort
          (fun a b => decide (cs a tier ≤ cs b tier)) next_tier_miners
        swapLoop ((sorted_current.zip sorted_next).takeWhile
            (fun pd => decide (cs pd.2 tier < cs pd.1 (tier - 1)) &&
              meets_tier_requirements max_days current_day wag pd.1 (tier + 1))) ct
      else ct

/-- Step 2 of `manage_tiers`, iterated over tiers 2-5. -/
def promoteSwapStep (num_miners max_days current_day : ℕ) (wag : ℕ → ℕ → ℚ)
    (cs : ℕ → ℕ → ℚ) (ct0 : List ℕ) : List ℕ :=
  [2, 3, 4, 5].foldl (promoteSwapIter num_miners max_days current_day wag cs) ct0

/-- Step 3 of `manage_tiers` (`_fill_empty_slots` for one tier): promote the
best min_wager-eligible members of active lower tiers into the tier's open
slots, ranked by the tier's composite slice. -/
def fillStep (num_miners max_days current_day : ℕ) (wag : ℕ → ℕ → ℚ)
    (cst : ℕ → ℚ) (tier : ℕ) (ct : List ℕ) : List ℕ :=
  if tier ≤ 1 then ct
  else
    let current_miners := (List.range num_miners).filter (fun m => ct.getD m 0 == tier)
    let open_slots : ℤ := (tierCapacity num_miners tier : ℤ) - current_miners.length
    if 0 < open_slots then
      let lower_tier_miners := (List.range num_miners).filter
        (fun m => decide (2 ≤ ct.getD m 0) && decide (ct.getD m 0 < tier))
      let eligible := lower_tier_miners.filter
        (fun m => meets_tier_requirements max_days current_day wag m tier &&
          decide (m ∉ current_miners))
      let eligible_sorted := stableSort (fun a b => decide (cst b ≤ cst a)) eligible
      promoteList tier (eligible_sorted.take open_slots.toNat) ct
    else ct

/-- The fill loop of `manage_tiers` over tiers 2-6. -/
def fillLoop (num_miners max_days current_day : ℕ) (wag : ℕ → ℕ → ℚ)
    (cs : ℕ → ℕ → ℚ) (ct : List ℕ) : List ℕ :=
  [2, 3, 4, 5, 6].foldl
    (fun ct' tier => fillStep num_miners max_days current_day wag
      (fun m => cs m (tier - 1)) tier ct') ct

/-- The final re-stamp of `manage_tiers`:
`self.tiers[list(self.invalid_uids), self.current_day] = 0`. -/
def restampInvalid (invalid_uids : Finset ℕ) : ℕ → List ℕ → List ℕ
  | _, [] => []
  | m, v :: vs =>
    (if m ∈ invalid_uids then 0 else v) :: restampInvalid invalid_uids (m + 1) vs

/-- `ScoringSystem.manage_tiers` acting on the current-day tier column:
demotion cascade, promote-and-swap, fill for tiers 2-6, then re-stamp the
invalid UIDs to tier 0. -/
def manage_tiers_col (num_miners max_days current_day : ℕ) (wag : ℕ → ℕ → ℚ)
    (cs : ℕ → ℕ → ℚ) (invalid_uids valid_uids : Finset ℕ) (ct0 : List ℕ) : List ℕ :=
  let t1 := demotionStep num_miners max_days current_day wag valid_uids ct0
  let t2 := promoteSwapStep num_miners max_days current_day wag cs t1
  let t3 := fillLoop num_miners max_days current_day wag cs t2
  restampInvalid invalid_uids 0 t3

/-! ## Scoring system: weights (`calculate_weights`) -/

/-- `tier_incentives` of `calculate_weights`: the incentives of tiers 2-6. -/
def tier_incentives_list : List ℚ := [1/10, 3/20, 1/5, 1/4, 3/10]

/-- The normalised incentives (the sum is exactly 1 here). -/
def normalized_incentives : List ℚ :=
  let total := tier_incentives_list.sum
  if 0 < total then tier_incentives_list.map (· / total)
  else tier_incentives_list.map (fun _ => 0)

/-- Minimum of a list of rationals (`np.min`; the empty case does not arise
at the call sites, which guard non-emptiness). -/
def listMinQ : List ℚ → ℚ
  | [] => 0
  | x :: xs => xs.foldl min x

/-- Maximum of a list of rationals. -/
def listMaxQ : List ℚ → ℚ
  | [] => 0
  | x :: xs => xs.foldl max x

/-- The per-tier weight assignment of `calculate_weights`: min-max normalise
the daily composites of the tier's members (zero on a collapsed range) and
scale by the tier's normalised incentive (indexed by the *enumeration* index
of the active tier, as the source does). -/
def tier_weight_step (num_miners : ℕ) (tcol : List ℕ) (comp : ℕ → ℚ)
    (w : ℕ → ℚ) (it : ℕ × ℕ) : ℕ → ℚ :=
  let tier_miners := (List.range num_miners).filter (fun m => tcol.getD m 0 == it.2)
  if tier_miners.isEmpty then w
  else
    let scores := tier_miners.map comp
    let min_score := listMinQ scores
    let max_score := listMaxQ scores
    let incentive_factor := normalized_incentives.getD it.1 0
    fun u =>
      if u ∈ tier_miners then
        (if max_score - min_score ≠ 0 then
            (comp u - min_score) / (max_score - min_score)
          else 0) * incentive_factor
      else w u

/-- `ScoringSystem.calculate_weights` as a function of the current-day tier
column and daily composite column.  Mirrors the source exactly, including the
`valid_miners.any()` emptiness test (which is false when UID 0 is the only
candidate, because `any` on an integer array tests for a non-zero element). -/
def calculate_weights (num_miners : ℕ) (invalid_uids empty_uids : Finset ℕ)
    (tcol : List ℕ) (comp : ℕ → ℚ) : ℕ → ℚ :=
  let weights0 : ℕ → ℚ := fun _ => 0
  let valid_miners := ((List.range num_miners).filter
      (fun m => decide (m ∉ invalid_uids))).filter
      (fun m => decide (2 ≤ tcol.getD m 0) && decide (tcol.getD m 0 < 7))
  if ¬ valid_miners.any (· != 0) then weights0
  else
    let active_tiers := (List.range' 2 5).filter
      (fun t => 0 < valid_miners.countP (fun m => tcol.getD m 0 == t))
    let w1 := active_tiers.enum.foldl (tier_weight_step num_miners tcol comp) weights0
    let total_weight := ∑ u in Finset.range num_miners, w1 u
    let w2 :=
      if 0 < total_weight then fun u => w1 u / total_weight
      else fun u => if u ∈ valid_miners then 1 / (valid_miners.length : ℚ) else w1 u
    fun u => if u ∈ invalid_uids then 0 else if u ∈ empty_uids then 0 else w2 u

/-! ## Scoring system: day advance and metric calculators -/

/-- `ScoringSystem.handle_downtime`: for `i = 1 .. days_passed - 1`, copy the
columns at `(current_day - days_passed + i) % max_days` into the columns at
`(current_day - days_passed + i + 1) % max_days` for `clv`, `roi`, `entropy`,
the whole composite tensor and the tier matrix (the source does not copy
`sortino_scores` or `amount_wagered`). -/
def handle_downtime (days_passed : ℕ) (s : ScoringState) : ScoringState :=
  (List.range' 1 (days_passed - 1)).foldl
    (fun st i =>
      let prev_day := (((st.current_day : ℤ) - days_passed + i).emod st.max_days).toNat
      let cur_day := (((st.current_day : ℤ) - days_passed + i + 1).emod st.max_days).toNat
      { st with
        clv_scores := setCol st.clv_scores cur_day (fun m => st.clv_scores m prev_day),
        roi_scores := setCol st.roi_scores cur_day (fun m => st.roi_scores m prev_day),
        entropy_scores := setCol st.entropy_scores cur_day (fun m => st.entropy_scores m prev_day),
        composite_scores := fun m d k =>
          if d = cur_day then st.composite_scores m prev_day k
          else st.composite_scores m d k,
        tiers := setCol st.tiers cur_day (fun m => st.tiers m prev_day) })
    s

/-- `ScoringSystem.advance_day`: record the date on first call; otherwise, if
at least one day passed, move the day cursor modulo `max_days`, zero the
`amount_wagered` column of the new day, copy the tier column from the old
day, and run `handle_downtime` when more than one day passed.  Otherwise
return the state unchanged. -/
def advance_day (today : ℤ) (s : ScoringState) : ScoringState :=
  match s.last_update_date with
  | none => { s with last_update_date := some today }
  | some lu =>
    let days_passed : ℤ := today - lu
    if 0 < days_passed then
      let old_day := s.current_day
      let new_day := ((s.current_day : ℤ) + days_passed).toNat % s.max_days
      let s1 := { s with
        current_day := new_day,
        last_update_date := some today,
        current_date := today + days_passed,
        amount_wagered := setCol s.amount_wagered new_day (fun _ => 0),
        tiers := setCol s.tiers new_day (fun m => s.tiers m old_day) }
      if 1 < days_passed then handle_downtime days_passed.toNat s1 else s1
    else s

/-- One iteration of the wager-accumulation loop of `_update_raw_scores`:
if the incoming wager would push the daily total past 1000, add only the
positive slack (or nothing); otherwise add the full wager. -/
def wagerLoopStep (current_day : ℕ) (wag : ℕ → ℕ → ℚ) (pred : PredRow) :
    ℕ → ℕ → ℚ :=
  let miner_id := pred.miner_uid
  let wager := pred.wager
  let current_wager := wag miner_id current_day
  if 1000 < current_wager + wager then
    let capped_wager := 1000 - current_wager
    if 0 < capped_wager then
      setCell wag miner_id current_day (current_wager + capped_wager)
    else wag
  else setCell wag miner_id current_day (current_wager + wager)

/-- The wager-accumulation loop of `_update_raw_scores` over a whole batch. -/
def wagerLoop (current_day : ℕ) (preds : List PredRow) (wag : ℕ → ℕ → ℚ) :
    ℕ → ℕ → ℚ :=
  preds.foldl (wagerLoopStep current_day) wag

/-- `np.unique` of the batch's external game ids: sorted distinct values. -/
def uniqueSortedIds (l : List ℕ) : List ℕ :=
  stableSort (fun a b => decide (a ≤ b)) l.dedup

/-- `ScoringSystem._calculate_clv_scores`.  For each row with a valid miner
id and an outcome inside the closing matrix, accumulate
`predicted_odds / closing_odds` when the closing odds are positive (zero
closing odds are skipped, silently for outcome 2); then average per miner.
The closing row is selected through the index of the game id among the
batch's sorted unique ids, exactly as the source's `external_id_to_index`
does (NumPy would raise when that index overflows the matrix; here the
out-of-range read defaults to odds 0, which accumulates nothing). -/
def calculate_clv_scores (num_miners : ℕ) (preds : List PredRow)
    (closing : List (List ℚ)) : ℕ → ℚ :=
  if preds.isEmpty || closing.isEmpty then fun _ => 0
  else
    let ids := uniqueSortedIds (preds.map (·.game_id))
    let cols := (closing.getD 0 []).length
    let acc := preds.foldl
      (fun (p : (ℕ → ℚ) × (ℕ → ℚ)) pred =>
        if pred.miner_uid < num_miners then
          if pred.predicted_outcome < cols then
            let closing_odds_index := ids.indexOf pred.game_id
            let closing_odds := (closing.getD closing_odds_index []).getD
              pred.predicted_outcome 0
            if 0 < closing_odds then
              (upd1 p.1 pred.miner_uid
                 (p.1 pred.miner_uid + pred.predicted_odds / closing_odds),
               upd1 p.2 pred.miner_uid (p.2 pred.miner_uid + 1))
            else p
          else p
        else p)
      (fun _ => 0, fun _ => 0)
    fun m => if 0 < acc.2 m then acc.1 m / acc.2 m else acc.1 m

/-- `dict(results)` lookup: the last pair wins, as in Python. -/
def gameOutcomeLookup (results : List (ℕ × ℤ)) (g : ℕ) : Option ℤ :=
  alookup g results.reverse

/-- `ScoringSystem._calculate_roi_scores`: accumulate
`(payout - wager) / wager` for each row whose game has a recorded outcome and
whose wager is non-zero; average per miner, no normalisation. -/
def calculate_roi_scores (preds : List PredRow)
    (results : List (ℕ × ℤ)) : ℕ → ℚ :=
  if preds.isEmpty || results.isEmpty then fun _ => 0
  else
    let acc := preds.foldl
      (fun (p : (ℕ → ℚ) × (ℕ → ℚ)) pred =>
        match gameOutcomeLookup results pred.game_id with
        | none => p
        | some _ =>
          if pred.wager = (0 : ℚ) then p
          else
            let roi := (pred.payout - pred.wager) / pred.wager
            (upd1 p.1 pred.miner_uid (p.1 pred.miner_uid + roi),
             upd1 p.2 pred.miner_uid (p.2 pred.miner_uid + 1)))
      (fun _ => 0, fun _ => 0)
    fun m => if 0 < acc.2 m then acc.1 m / acc.2 m else acc.1 m

/-- `ScoringSystem._calculate_sortino_scores`: per miner, build the return
series, trim beyond three standard deviations, then divide the mean by the
downside deviation (or by the standard deviation when no negative return
remains), each plus 0.01, capped at 10.  `np.std` and the downside root are
the IEEE square root of the respective mean of squares, abstracted by
`sq`. -/
def calculate_sortino_scores (sq : ℚ → ℚ) (num_miners : ℕ)
    (preds : List PredRow) (results : List (ℕ × ℤ)) : ℕ → ℚ :=
  if preds.isEmpty || results.isEmpty then fun _ => 0
  else
    let risk_free_rate : ℚ := 0
    let max_sortino_ratio : ℚ := 10
    let eps : ℚ := 1 / 100
    let returns : ℕ → List ℚ := preds.foldl
      (fun f pred =>
        match gameOutcomeLookup results pred.game_id with
        | none => f
        | some _ =>
          if pred.wager = (0 : ℚ) then f
          else upd1 f pred.miner_uid
            (f pred.miner_uid ++
              [(pred.payout - pred.wager) / pred.wager - risk_free_rate]))
      (fun _ => [])
    fun m =>
      if m < num_miners then
        let rs := returns m
        if rs.isEmpty then 0
        else
          let mean_return := rs.sum / (rs.length : ℚ)
          let std_return := sq ((rs.map (fun r => (r - mean_return) ^ 2)).sum / (rs.length : ℚ))
          let trimmed := rs.filter (fun r => decide (|r - mean_return| ≤ 3 * std_return))
          if trimmed.isEmpty then 0
          else
            let average_return := trimmed.sum / (trimmed.length : ℚ)
            let downside_returns := trimmed.filter (fun r => decide (r < 0))
            let sortino_ratio :=
              if ¬ downside_returns.isEmpty then
                average_return /
                  (sq ((downside_returns.map (fun r => r ^ 2)).sum /
                    (downside_returns.length : ℚ)) + eps)
              else
                average_return /
                  (sq ((trimmed.map (fun r => (r - average_return) ^ 2)).sum /
                    (trimmed.length : ℚ)) + eps)
            min sortino_ratio max_sortino_ratio
      else 0

/-- `ScoringSystem._update_raw_scores`: write the CLV, ROI and Sortino
columns, run the wager-accumulation loop, then fetch the EBDR scores (which
also runs the entropy reset sweep) and write the entropy column. -/
def update_raw_scores (sq : ℚ → ℚ) (now : ℤ) (preds : List PredRow)
    (closing : List (List ℚ)) (results : List (ℕ × ℤ)) (s : ScoringState) :
    ScoringState :=
  let cd := s.current_day
  let external_ids := uniqueSortedIds (preds.map (·.game_id))
  let s1 := { s with
    clv_scores := setCol s.clv_scores cd (calculate_clv_scores s.num_miners preds closing) }
  let s2 := { s1 with
    roi_scores := setCol s1.roi_scores cd (calculate_roi_scores preds results) }
  let s3 := { s2 with
    sortino_scores :=
      setCol s2.sortino_scores cd (calculate_sortino_scores sq s.num_miners preds results) }
  let s4 := { s3 with amount_wagered := wagerLoop cd preds s3.amount_wagered }
  let er := get_current_ebdr_scores now s.current_date cd external_ids s.entropy_system
  { s4 with
    entropy_scores := setCol s4.entropy_scores (cd % s.max_days) er.1,
    entropy_system := er.2 }

/-- `ScoringSystem._update_composite_scores`: the daily composite is
`0.30 clv + 0.30 roi + 0.30 sortino + 0.10 entropy`; slices 1-5 hold the
rolling mean of the daily composite over each tier's window with circular
wrap. -/
def update_composite_scores (s : ScoringState) : ScoringState :=
  let cd := s.current_day
  let D := s.max_days
  let daily : ℕ → ℚ := fun m =>
    (3/10) * s.clv_scores m cd + (3/10) * s.roi_scores m cd
      + (3/10) * s.sortino_scores m cd + (1/10) * s.entropy_scores m cd
  let comp1 : ℕ → ℕ → ℕ → ℚ := fun m d k =>
    if d = cd ∧ k = 0 then daily m else s.composite_scores m d k
  let comp2 := (List.range' 1 5).foldl
    (fun c tier =>
      let window := tierWindow (tier + 1)
      let start_day := (((cd : ℤ) - window + 1).emod D).toNat
      let day_list :=
        if start_day ≤ cd then List.range' start_day (cd - start_day + 1)
        else List.range' start_day (D - start_day) ++ List.range (cd + 1)
      fun m d k =>
        if d = cd ∧ k = tier then
          ((day_list.map (fun j => c m j 0)).sum) / (day_list.length : ℚ)
        else c m d k)
    comp1
  { s with composite_scores := comp2 }

/-- `ScoringSystem.update_scores`: when the batch, closing odds and results
are all non-empty, update the raw scores and then the composites. -/
def update_scores (sq : ℚ → ℚ) (now : ℤ) (preds : List PredRow)
    (closing : List (List ℚ)) (results : List (ℕ × ℤ)) (s : ScoringState) :
    ScoringState :=
  if ¬ preds.isEmpty ∧ ¬ closing.isEmpty ∧ ¬ results.isEmpty then
    update_composite_scores (update_raw_scores sq now preds closing results s)
  else s

/-- The tail of `ScoringSystem.scoring_run` after `manage_tiers`
(lines 1026-1056): compute the weights, zero the invalid UIDs, and
renormalise; when the renormalised total is zero the uniform fallback
divides by `len(self.valid_uids)`, which raises `ZeroDivisionError` when
`valid_uids` is empty — the `none` result. -/
def finalize_weights (num_miners : ℕ) (invalid_uids valid_uids empty_uids : Finset ℕ)
    (tcol : List ℕ) (comp : ℕ → ℚ) : Option (List ℚ) :=
  let weights := calculate_weights num_miners invalid_uids empty_uids tcol comp
  let weights2 := fun u => if u ∈ invalid_uids then 0 else weights u
  let total := ∑ u in Finset.range num_miners, weights2 u
  if 0 < total then
    some ((List.range num_miners).map (fun u => weights2 u / total))
  else if valid_uids = ∅ then none
  else
    some ((List.range num_miners).map (fun u =>
      if u ∈ valid_uids then 1 / (valid_uids.card : ℚ) else weights2 u))

/-- `ScoringSystem.scoring_run`.  Records the UID partition, stamps the tier
column for empty, invalid and valid UIDs (the under-2 valid re-stamp writes
whole rows, as the source's unsliced boolean-mask assignment does), advances
the day, updates scores when a batch is present, manages tiers, computes
weights, zeroes the invalid UIDs and renormalises.  The constant-returning
branch `weights[list(self.valid_uids)] = 1 / len(self.valid_uids)` raises
`ZeroDivisionError` in the source when `valid_uids` is empty; that is the
`none` result.  (Persistence calls at the end of the run are I/O.) -/
def scoring_run (sq : ℚ → ℚ) (date now : ℤ) (invalid_uids valid_uids : Finset ℕ)
    (preds : List PredRow) (closing : List (List ℚ)) (results : List (ℕ × ℤ))
    (s : ScoringState) : Option (List ℚ) :=
  let M := s.num_miners
  let empty_uids := ((Finset.range M) \ valid_uids) \ invalid_uids
  let tiersA := if s.init then setCol s.tiers s.current_day (fun _ => 2) else s.tiers
  let tiersB := setCol tiersA s.current_day (fun m =>
    if m ∈ invalid_uids then 1
    else if m ∈ empty_uids then 0
    else tiersA m s.current_day)
  let tiersC := fun m d =>
    if m ∈ valid_uids ∧ tiersB m s.current_day < 2 then 2 else tiersB m d
  let s1 := { s with
    tiers := tiersC,
    invalid_uids := invalid_uids,
    valid_uids := valid_uids,
    init := false }
  let s2 := advance_day date s1
  let s3 := update_scores sq now preds closing results s2
  let ct := manage_tiers_col M s3.max_days s3.current_day s3.amount_wagered
    (fun m k => s3.composite_scores m s3.current_day k) invalid_uids valid_uids
    ((List.range M).map (fun m => s3.tiers m s3.current_day))
  finalize_weights M invalid_uids valid_uids empty_uids ct
    (fun m => s3.composite_scores m s3.current_day 0)

/-! ## Counting toolkit for the tier-capacity analysis -/

/-- The number of miners assigned to tier `t` in a column: the length of the
`np.where(current_tiers == t)[0]` index list. -/
def tierCount (num_miners : ℕ) (ct : List ℕ) (t : ℕ) : ℕ :=
  ((List.range num_miners).filter (fun m => ct.getD m 0 == t)).length

/-- The capacity invariant of §3 for tiers 2-6 on a tier column. -/
def capOK (num_miners : ℕ) (ct : List ℕ) : Prop :=
  ∀ t ∈ Finset.Icc 2 6, tierCount num_miners ct t ≤ tierCapacity num_miners t

instance capOK_decidable (num_miners : ℕ) (ct : List ℕ) :
    Decidable (capOK num_miners ct) := by
  unfold capOK; infer_instance

theorem filterRange_length (M : ℕ) (p : ℕ → Bool) :
    ((List.range M).filter p).length = ∑ x in Finset.range M, if p x then 1 else 0 := by
  induction M with
  | zero => simp
  | succ n ih =>
    rw [List.range_succ, List.filter_append, List.length_append, ih,
      Finset.sum_range_succ]
    by_cases h : p n <;> simp [h]

theorem tierCount_eq_sum (M : ℕ) (ct : List ℕ) (t : ℕ) :
    tierCount M ct t = ∑ x in Finset.range M, if ct.getD x 0 = t then 1 else 0 := by
  rw [tierCount, filterRange_length]
  refine Finset.sum_congr rfl (fun x _ => ?_)
  by_cases h : ct.getD x 0 = t <;> simp [h]

theorem getD_set_ne : ∀ (l : List ℕ) (m v x : ℕ), x ≠ m →
    (l.set m v).getD x 0 = l.getD x 0
  | [], _, _, _, _ => rfl
  | _ :: _, 0, _, 0, h => absurd rfl h
  | _ :: _, 0, _, _ + 1, _ => rfl
  | _ :: _, _ + 1, _, 0, _ => rfl
  | a :: as, m + 1, v, x + 1, h => by
    simpa [List.set] using getD_set_ne as m v x (by omega)

theorem getD_set_self : ∀ (l : List ℕ) (m v : ℕ), m < l.length →
    (l.set m v).getD m 0 = v
  | [], _, _, h => absurd h (by simp)
  | _ :: _, 0, _, _ => rfl
  | a :: as, m + 1, v, h => by
    simpa [List.set] using getD_set_self as m v (by simpa using h)

theorem tierCount_set_le (M : ℕ) (ct : List ℕ) (m v t : ℕ) :
    tierCount M (ct.set m v) t ≤ tierCount M ct t + (if v = t then 1 else 0) := by
  rw [tierCount_eq_sum, tierCount_eq_sum]
  by_cases hm : m ∈ Finset.range M
  · rw [← Finset.add_sum_erase _ _ hm,
      ← Finset.add_sum_erase _ (fun x => if ct.getD x 0 = t then 1 else 0) hm]
    have hrest : ∑ x in (Finset.range M).erase m,
        (if (ct.set m v).getD x 0 = t then 1 else 0)
        = ∑ x in (Finset.range M).erase m, (if ct.getD x 0 = t then 1 else 0) :=
      Finset.sum_congr rfl (fun x hx => by
        rw [getD_set_ne _ _ _ _ (Finset.ne_of_mem_erase hx)])
    rw [hrest]
    have h1 : (if (ct.set m v).getD m 0 = t then 1 else 0)
        ≤ (if ct.getD m 0 = t then 1 else 0) + (if v = t then 1 else 0) := by
      rcases lt_or_ge m ct.length with hl | hl
      · rw [getD_set_self _ _ _ hl]
        split <;> split <;> omega
      · rw [List.set_eq_of_length_le hl]
        split <;> split <;> omega
    omega
  · have heq : ∀ x ∈ Finset.range M, (if (ct.set m v).getD x 0 = t then (1:ℕ) else 0)
        = (if ct.getD x 0 = t then 1 else 0) := fun x hx => by
      have hxm : x ≠ m := by rintro rfl; exact hm hx
      rw [getD_set_ne _ _ _ _ hxm]
    rw [Finset.sum_congr rfl heq]
    omega

theorem tierCount_set_le_of_ne (M : ℕ) (ct : List ℕ) (m v t : ℕ) (h : v ≠ t) :
    tierCount M (ct.set m v) t ≤ tierCount M ct t := by
  have := tierCount_set_le M ct m v t
  simpa [h] using this

theorem tierCount_set_add (M : ℕ) (ct : List ℕ) (m v t : ℕ)
    (hmM : m < M) (hml : m < ct.length) :
    tierCount M (ct.set m v) t + (if ct.getD m 0 = t then 1 else 0)
      = tierCount M ct t + (if v = t then 1 else 0) := by
  rw [tierCount_eq_sum, tierCount_eq_sum,
    ← Finset.add_sum_erase _ _ (Finset.mem_range.mpr hmM),
    ← Finset.add_sum_erase _ (fun x => if ct.getD x 0 = t then 1 else 0)
      (Finset.mem_range.mpr hmM)]
  have hrest : ∑ x in (Finset.range M).erase m,
      (if (ct.set m v).getD x 0 = t then 1 else 0)
      = ∑ x in (Finset.range M).erase m, (if ct.getD x 0 = t then 1 else 0) :=
    Finset.sum_congr rfl (fun x hx => by
      rw [getD_set_ne _ _ _ _ (Finset.ne_of_mem_erase hx)])
  rw [hrest, getD_set_self _ _ _ hml]
  ring

theorem tierCount_swap (M : ℕ) (ct : List ℕ) (p d t : ℕ)
    (hpM : p < M) (hdM : d < M) (hpl : p < ct.length) (hdl : d < ct.length)
    (hpd : p ≠ d) :
    tierCount M ((ct.set p (ct.getD d 0)).set d (ct.getD p 0)) t
      = tierCount M ct t := by
  have h1 := tierCount_set_add M ct p (ct.getD d 0) t hpM hpl
  have h2 := tierCount_set_add M (ct.set p (ct.getD d 0)) d (ct.getD p 0) t hdM
    (by rw [List.length_set]; exact hdl)
  rw [getD_set_ne _ _ _ _ (fun e => hpd e.symm)] at h2
  generalize hA : (if ct.getD d 0 = t then (1:ℕ) else 0) = A at h1 h2
  generalize hB : (if ct.getD p 0 = t then (1:ℕ) else 0) = B at h1 h2
  omega

theorem tierCount_foldl_set_le (M v t : ℕ) :
    ∀ (l : List ℕ) (ct : List ℕ),
      tierCount M (l.foldl (fun c m => c.set m v) ct) t
        ≤ tierCount M ct t + (if v = t then l.length else 0) := by
  intro l
  induction l with
  | nil => intro ct; simp
  | cons m ms ih =>
    intro ct
    have h1 := ih (ct.set m v)
    have h2 := tierCount_set_le M ct m v t
    simp only [List.foldl_cons, List.length_cons]
    split at h1 <;> split at h2 <;> split <;> omega

theorem length_foldl_set (v : ℕ) :
    ∀ (l : List ℕ) (ct : List ℕ),
      (l.foldl (fun c m => c.set m v) ct).length = ct.length := by
  intro l
  induction l with
  | nil => intro ct; rfl
  | cons m ms ih => intro ct; rw [List.foldl_cons, ih, List.length_set]

/-- Generic fold-invariant helper. -/
theorem foldl_preserve {α β : Type} (P : β → Prop) (f : β → α → β)
    (h : ∀ b a, P b → P (f b a)) : ∀ (l : List α) (b : β), P b → P (l.foldl f b) := by
  intro l
  induction l with
  | nil => intro b hb; exact hb
  | cons a as ih => intro b hb; exact ih (f b a) (h b a hb)

theorem foldl_preserve_mem {α β : Type} (P : β → Prop) (f : β → α → β) :
    ∀ (l : List α), (∀ b, ∀ a ∈ l, P b → P (f b a)) →
      ∀ b, P b → P (l.foldl f b) := by
  intro l
  induction l with
  | nil => intro _ b hb; exact hb
  | cons a as ih =>
    intro h b hb
    exact ih (fun b' a' ha' => h b' a' (List.mem_cons_of_mem a ha'))
      (f b a) (h b a (List.mem_cons_self a as) hb)

theorem length_cascade_demotion (valid : Finset ℕ) (D cd : ℕ) (wag : ℕ → ℕ → ℚ)
    (m : ℕ) : ∀ (fuel t : ℕ) (ct : List ℕ),
    (cascade_demotion valid D cd wag m fuel t ct).length = ct.length := by
  intro fuel
  induction fuel with
  | zero => intro t ct; rfl
  | succ n ih =>
    intro t ct
    rw [cascade_demotion]
    split <;> split
    · exact List.length_set ..
    · rw [ih, List.length_set]
    · exact List.length_set ..
    · rw [ih, List.length_set]

theorem length_demotionStep (M D cd : ℕ) (wag : ℕ → ℕ → ℚ) (valid : Finset ℕ)
    (ct0 : List ℕ) : (demotionStep M D cd wag valid ct0).length = ct0.length := by
  rw [demotionStep]
  refine foldl_preserve (fun c : List ℕ => c.length = ct0.length) _
    (fun b tier hb => ?_) _ _ rfl
  refine foldl_preserve (fun c : List ℕ => c.length = ct0.length) _
    (fun b' m hb' => ?_) _ _ hb
  split
  · exact hb'
  · rw [length_cascade_demotion]; exact hb'

theorem length_promoteList (v : ℕ) (l : List ℕ) (ct : List ℕ) :
    (promoteList v l ct).length = ct.length := by
  rw [promoteList]; exact length_foldl_set v l ct

theorem tierCount_promoteList_le (M v t : ℕ) (l : List ℕ) (ct : List ℕ) :
    tierCount M (promoteList v l ct) t
      ≤ tierCount M ct t + (if v = t then l.length else 0) := by
  rw [promoteList]; exact tierCount_foldl_set_le M v t l ct

theorem swapLoop_counts (M : ℕ) :
    ∀ (pairs : List (ℕ × ℕ)),
      (∀ pd ∈ pairs, pd.1 < M ∧ pd.2 < M ∧ pd.1 ≠ pd.2) →
      ∀ c : List ℕ, c.length = M →
        (∀ t, tierCount M (swapLoop pairs c) t = tierCount M c t) ∧
          (swapLoop pairs c).length = M := by
  intro pairs
  induction pairs with
  | nil => intro _ c hc; exact ⟨fun _ => rfl, hc⟩
  | cons pd ps ih =>
    intro hp c hc
    obtain ⟨h1M, h2M, hne⟩ := hp pd (List.mem_cons_self pd ps)
    have hstep : ((c.set pd.1 (c.getD pd.2 0)).set pd.2 (c.getD pd.1 0)).length = M := by
      rw [List.length_set, List.length_set]; exact hc
    have hrec := ih (fun q hq => hp q (List.mem_cons_of_mem pd hq))
      ((c.set pd.1 (c.getD pd.2 0)).set pd.2 (c.getD pd.1 0)) hstep
    refine ⟨fun t => ?_, hrec.2⟩
    rw [swapLoop] at hrec ⊢
    simp only [List.foldl_cons]
    rw [hrec.1 t, tierCount_swap M c pd.1 pd.2 t h1M h2M (by omega) (by omega) hne]

/-- The swap pairs of `_promote_and_swap` consist of one current-tier index
and one next-tier index, hence are in-range and distinct. -/
theorem swap_pairs_mem (M : ℕ) (ct : List ℕ) (tier : ℕ) (q : ℕ × ℕ → Bool)
    (bef1 bef2 : ℕ → ℕ → Bool) :
    ∀ pd ∈ ((stableSort bef1
          ((List.range M).filter (fun m => ct.getD m 0 == tier))).zip
        (stableSort bef2
          ((List.range M).filter (fun m => ct.getD m 0 == tier + 1)))).takeWhile q,
      pd.1 < M ∧ pd.2 < M ∧ pd.1 ≠ pd.2 := by
  intro pd hpd
  have hz := (List.takeWhile_sublist q).mem hpd
  obtain ⟨h1, h2⟩ := List.of_mem_zip hz
  rw [mem_stableSort] at h1 h2
  obtain ⟨h1r, h1t⟩ := List.mem_filter.mp h1
  obtain ⟨h2r, h2t⟩ := List.mem_filter.mp h2
  have h1v : ct.getD pd.1 0 = tier := by simpa using h1t
  have h2v : ct.getD pd.2 0 = tier + 1 := by simpa using h2t
  exact ⟨List.mem_range.mp h1r, List.mem_range.mp h2r, by
    intro e; rw [e, h2v] at h1v; omega⟩

theorem promoteSwapIter_capOK (M D cd : ℕ) (wag : ℕ → ℕ → ℚ) (cs : ℕ → ℕ → ℚ)
    (ct : List ℕ) (tier : ℕ) (hlen : ct.length = M) (h : capOK M ct) :
    capOK M (promoteSwapIter M D cd wag cs ct tier) ∧
      (promoteSwapIter M D cd wag cs ct tier).length = M := by
  rw [promoteSwapIter]
  split
  · -- promotion branch: open slots in the next tier
    rename_i hopen
    constructor
    · intro t ht
      rcases eq_or_ne (tier + 1) t with htv | htv
      · subst htv
        refine le_trans (tierCount_promoteList_le M (tier + 1) (tier + 1) _ ct) ?_
        rw [if_pos rfl]
        simp only [List.length_take, tierCount]
        omega
      · refine le_trans (tierCount_promoteList_le M (tier + 1) t _ ct) ?_
        rw [if_neg htv, Nat.add_zero]
        exact h t ht
    · rw [length_promoteList]; exact hlen
  · split
    · -- swap branch: next tier full and non-empty
      rename_i hopen hne
      constructor
      · intro t ht
        exact le_of_eq_of_le
          ((swapLoop_counts M _ (swap_pairs_mem M ct tier _ _ _) ct hlen).1 t)
          (h t ht)
      · exact (swapLoop_counts M _ (swap_pairs_mem M ct tier _ _ _) ct hlen).2
    · exact ⟨h, hlen⟩

theorem fillStep_capOK (M D cd : ℕ) (wag : ℕ → ℕ → ℚ) (cst : ℕ → ℚ)
    (tier : ℕ) (ct : List ℕ) (hlen : ct.length = M) (h : capOK M ct) :
    capOK M (fillStep M D cd wag cst tier ct) ∧
      (fillStep M D cd wag cst tier ct).length = M := by
  rw [fillStep]
  split
  · exact ⟨h, hlen⟩
  · dsimp only
    split
    · rename_i htier hopen
      constructor
      · intro t ht
        rcases eq_or_ne tier t with htv | htv
        · subst htv
          refine le_trans (tierCount_promoteList_le M tier tier _ ct) ?_
          rw [if_pos rfl]
          simp only [List.length_take, tierCount]
          omega
        · refine le_trans (tierCount_promoteList_le M tier t _ ct) ?_
          rw [if_neg htv, Nat.add_zero]
          exact h t ht
      · rw [length_promoteList]; exact hlen
    · exact ⟨h, hlen⟩

theorem promoteSwapStep_capOK (M D cd : ℕ) (wag : ℕ → ℕ → ℚ) (cs : ℕ → ℕ → ℚ)
    (ct0 : List ℕ) (hlen : ct0.length = M) (h : capOK M ct0) :
    capOK M (promoteSwapStep M D cd wag cs ct0) ∧
      (promoteSwapStep M D cd wag cs ct0).length = M := by
  rw [promoteSwapStep]
  exact foldl_preserve (fun c : List ℕ => capOK M c ∧ c.length = M) _
    (fun b tier hb => promoteSwapIter_capOK M D cd wag cs b tier hb.2 hb.1)
    _ _ ⟨h, hlen⟩

theorem fillLoop_capOK (M D cd : ℕ) (wag : ℕ → ℕ → ℚ) (cs : ℕ → ℕ → ℚ)
    (ct : List ℕ) (hlen : ct.length = M) (h : capOK M ct) :
    capOK M (fillLoop M D cd wag cs ct) ∧
      (fillLoop M D cd wag cs ct).length = M := by
  rw [fillLoop]
  exact foldl_preserve (fun c : List ℕ => capOK M c ∧ c.length = M) _
    (fun b tier hb => fillStep_capOK M D cd wag _ tier b hb.2 hb.1)
    _ _ ⟨h, hlen⟩

theorem restamp_getD (inv : Finset ℕ) : ∀ (ct : List ℕ) (k x : ℕ),
    (restampInvalid inv k ct).getD x 0
      = if x < ct.length ∧ (k + x) ∈ inv then 0 else ct.getD x 0 := by
  intro ct
  induction ct with
  | nil => intro k x; simp [restampInvalid]
  | cons v vs ih =>
    intro k x
    cases x with
    | zero =>
      by_cases hk : k ∈ inv <;> simp [restampInvalid, hk]
    | succ y =>
      have := ih (k + 1) y
      simp only [restampInvalid, List.getD_cons_succ, List.length_cons]
      rw [this]
      have harith : k + 1 + y = k + (y + 1) := by omega
      rw [harith]
      by_cases hc : y < vs.length ∧ k + (y + 1) ∈ inv
      · rw [if_pos hc, if_pos ⟨by omega, hc.2⟩]
      · rw [if_neg hc, if_neg (by
          intro ⟨h1, h2⟩
          exact hc ⟨by omega, h2⟩)]

theorem tierCount_restamp_le (M : ℕ) (inv : Finset ℕ) (ct : List ℕ) (t : ℕ)
    (ht : t ≠ 0) :
    tierCount M (restampInvalid inv 0 ct) t ≤ tierCount M ct t := by
  rw [tierCount_eq_sum, tierCount_eq_sum]
  refine Finset.sum_le_sum (fun x _ => ?_)
  rw [restamp_getD]
  split
  · rw [if_neg (fun e => ht e.symm)]
    omega
  · omega

/-- `ScoringSystem.manage_tiers` as the composition used for the capacity
analysis. -/
theorem manage_tiers_col_eq (M D cd : ℕ) (wag : ℕ → ℕ → ℚ) (cs : ℕ → ℕ → ℚ)
    (invalid valid : Finset ℕ) (ct0 : List ℕ) :
    manage_tiers_col M D cd wag cs invalid valid ct0
      = restampInvalid invalid 0
          (fillLoop M D cd wag cs
            (promoteSwapStep M D cd wag cs
              (demotionStep M D cd wag valid ct0))) := rfl

/-! ## Weight lemmas -/

theorem foldl_min_le (l : List ℚ) : ∀ (a : ℚ), l.foldl min a ≤ a ∧ ∀ y ∈ l, l.foldl min a ≤ y := by
  induction l with
  | nil => intro a; exact ⟨le_refl a, by simp⟩
  | cons b bs ih =>
    intro a
    obtain ⟨h1, h2⟩ := ih (min a b)
    refine ⟨le_trans h1 (min_le_left a b), ?_⟩
    intro y hy
    rcases List.mem_cons.mp hy with rfl | hy'
    · exact le_trans h1 (min_le_right a y)
    · exact h2 y hy'

theorem foldl_max_ge (l : List ℚ) : ∀ (a : ℚ), a ≤ l.foldl max a ∧ ∀ y ∈ l, y ≤ l.foldl max a := by
  induction l with
  | nil => intro a; exact ⟨le_refl a, by simp⟩
  | cons b bs ih =>
    intro a
    obtain ⟨h1, h2⟩ := ih (max a b)
    refine ⟨le_trans (le_max_left a b) h1, ?_⟩
    intro y hy
    rcases List.mem_cons.mp hy with rfl | hy'
    · exact le_trans (le_max_right a y) h1
    · exact h2 y hy'

theorem listMinQ_le_of_mem (l : List ℚ) (x : ℚ) (hx : x ∈ l) : listMinQ l ≤ x := by
  cases l with
  | nil => cases hx
  | cons a as =>
    rcases List.mem_cons.mp hx with rfl | hx'
    · exact (foldl_min_le as x).1
    · exact (foldl_min_le as a).2 x hx'

theorem le_listMaxQ_of_mem (l : List ℚ) (x : ℚ) (hx : x ∈ l) : x ≤ listMaxQ l := by
  cases l with
  | nil => cases hx
  | cons a as =>
    rcases List.mem_cons.mp hx with rfl | hx'
    · exact (foldl_max_ge as x).1
    · exact (foldl_max_ge as a).2 x hx'

theorem normalized_incentives_getD_nonneg (i : ℕ) :
    0 ≤ normalized_incentives.getD i 0 := by
  match i with
  | 0 => decide
  | 1 => decide
  | 2 => decide
  | 3 => decide
  | 4 => decide
  | n + 5 =>
    rw [List.getD_eq_default]
    · have hlen : normalized_incentives.length = 5 := by decide
      omega

set_option maxHeartbeats 2000000 in
theorem tier_weight_step_nonneg (M : ℕ) (tcol : List ℕ) (comp : ℕ → ℚ)
    (w : ℕ → ℚ) (it : ℕ × ℕ) (hw : ∀ x, 0 ≤ w x) :
    ∀ x, 0 ≤ tier_weight_step M tcol comp w it x := by
  intro x
  rw [tier_weight_step]
  dsimp only
  split
  · exact hw x
  · rename_i hne
    dsimp only
    split
    · rename_i hxmem
      apply mul_nonneg _ (normalized_incentives_getD_nonneg it.1)
      split
      · apply div_nonneg
        · rw [sub_nonneg]
          exact listMinQ_le_of_mem _ _ (List.mem_map_of_mem comp hxmem)
        · rw [sub_nonneg]
          cases hfl : (List.range M).filter (fun m => tcol.getD m 0 == it.2) with
          | nil => rw [hfl] at hne; simp at hne
          | cons a as =>
            exact le_trans
              (listMinQ_le_of_mem _ (comp a)
                (List.mem_map_of_mem comp (List.mem_cons_self a as)))
              (le_listMaxQ_of_mem _ (comp a)
                (List.mem_map_of_mem comp (List.mem_cons_self a as)))
      · exact le_refl _
    · exact hw x

theorem w1_fold_nonneg (M : ℕ) (tcol : List ℕ) (comp : ℕ → ℚ)
    (l : List (ℕ × ℕ)) :
    ∀ x, 0 ≤ (l.foldl (tier_weight_step M tcol comp) (fun _ => 0)) x :=
  foldl_preserve (fun w : ℕ → ℚ => ∀ x, 0 ≤ w x) _
    (fun b a hb => tier_weight_step_nonneg M tcol comp b a hb) l _
    (fun _ => le_refl 0)

set_option maxHeartbeats 2000000 in
theorem calculate_weights_nonneg (M : ℕ) (invalid empty : Finset ℕ)
    (tcol : List ℕ) (comp : ℕ → ℚ) (u : ℕ) :
    0 ≤ calculate_weights M invalid empty tcol comp u := by
  rw [calculate_weights]
  dsimp only
  split
  · exact le_refl (0 : ℚ)
  · dsimp only
    split
    · exact le_refl (0 : ℚ)
    · split
      · exact le_refl (0 : ℚ)
      · split
        · rename_i htot
          exact div_nonneg (w1_fold_nonneg M tcol comp _ u) (le_of_lt htot)
        · dsimp only
          split
          · positivity
          · exact w1_fold_nonneg M tcol comp _ u

theorem calculate_weights_zero (M : ℕ) (invalid empty : Finset ℕ)
    (tcol : List ℕ) (comp : ℕ → ℚ) (u : ℕ)
    (hu : u ∈ invalid ∨ u ∈ empty) :
    calculate_weights M invalid empty tcol comp u = 0 := by
  rw [calculate_weights]
  dsimp only
  split
  · rfl
  · dsimp only
    rcases hu with hu | hu
    · rw [if_pos hu]
    · by_cases hi : u ∈ invalid
      · rw [if_pos hi]
      · rw [if_neg hi, if_pos hu]

theorem listSum_map_range (n : ℕ) (f : ℕ → ℚ) :
    ((List.range n).map f).sum = ∑ u in Finset.range n, f u := by
  induction n with
  | zero => simp
  | succ k ih =>
    rw [List.range_succ, List.map_append, List.sum_append, Finset.sum_range_succ, ih]
    simp

theorem rangeMap_getD (n u : ℕ) (f : ℕ → ℚ) (hu : u < n) :
    ((List.range n).map f).getD u 0 = f u := by
  rw [List.getD_eq_getElem?_getD, List.getElem?_map, List.getElem?_range hu]
  rfl

theorem finalize_core_pos (M : ℕ) (w2 : ℕ → ℚ)
    (ht : 0 < ∑ u in Finset.range M, w2 u) :
    ((List.range M).map (fun u => w2 u / ∑ x in Finset.range M, w2 x)).sum = 1 := by
  rw [listSum_map_range, ← Finset.sum_div, div_self (ne_of_gt ht)]

theorem finalize_core_fallback (M : ℕ) (val : Finset ℕ) (w2 : ℕ → ℚ)
    (hval : val ⊆ Finset.range M) (hne : val.Nonempty)
    (hz : ∀ u ∈ Finset.range M, w2 u = 0) :
    ((List.range M).map
      (fun u => if u ∈ val then 1 / (val.card : ℚ) else w2 u)).sum = 1 := by
  rw [listSum_map_range]
  have h1 : ∑ u in Finset.range M, (if u ∈ val then 1 / (val.card : ℚ) else w2 u)
      = ∑ u in Finset.range M, (if u ∈ val then 1 / (val.card : ℚ) else 0) :=
    Finset.sum_congr rfl (fun u hu => by
      split
      · rfl
      · exact hz u hu)
  rw [h1, Finset.sum_ite_mem, Finset.inter_eq_right.mpr hval, Finset.sum_const,
    nsmul_eq_mul, mul_one_div,
    div_self (Nat.cast_ne_zero.mpr (Finset.Nonempty.card_pos hne).ne')]

theorem finalize_weights_spec (M : ℕ) (inv val : Finset ℕ)
    (tcol : List ℕ) (comp : ℕ → ℚ) (hval : val ⊆ Finset.range M) :
    (val.Nonempty →
      ∃ w, finalize_weights M inv val ((Finset.range M \ val) \ inv) tcol comp
          = some w ∧ w.length = M ∧ w.sum = 1) ∧
    (val = ∅ →
      finalize_weights M inv val ((Finset.range M \ val) \ inv) tcol comp
          = none) := by
  constructor
  · intro hne
    rw [finalize_weights]
    dsimp only
    split
    · rename_i ht
      exact ⟨_, rfl, by simp, finalize_core_pos M _ ht⟩
    · rename_i ht
      rw [if_neg (Finset.nonempty_iff_ne_empty.mp hne)]
      have hnn : ∀ u ∈ Finset.range M,
          (0:ℚ) ≤ (if u ∈ inv then 0
            else calculate_weights M inv ((Finset.range M \ val) \ inv) tcol comp u) := by
        intro u _
        split
        · exact le_refl 0
        · exact calculate_weights_nonneg M inv _ tcol comp u
      have hz : ∀ u ∈ Finset.range M,
          (if u ∈ inv then (0:ℚ)
            else calculate_weights M inv ((Finset.range M \ val) \ inv) tcol comp u) = 0 :=
        (Finset.sum_eq_zero_iff_of_nonneg hnn).mp
          (le_antisymm (not_lt.mp ht) (Finset.sum_nonneg hnn))
      exact ⟨_, rfl, by simp, finalize_core_fallback M val _ hval hne hz⟩
  · intro h
    subst h
    rw [finalize_weights]
    dsimp only
    have hz : ∀ u ∈ Finset.range M,
        (if u ∈ inv then (0:ℚ)
          else calculate_weights M inv ((Finset.range M \ ∅) \ inv) tcol comp u) = 0 := by
      intro u hu
      split
      · rfl
      · rename_i hi
        exact calculate_weights_zero M inv _ tcol comp u
          (Or.inr (Finset.mem_sdiff.mpr
            ⟨Finset.mem_sdiff.mpr ⟨hu, Finset.not_mem_empty u⟩, hi⟩))
    rw [if_neg (by rw [Finset.sum_eq_zero hz]; exact lt_irrefl 0), if_pos rfl]

theorem finalize_weights_mem_zero (M : ℕ) (inv val empty : Finset ℕ)
    (tcol : List ℕ) (comp : ℕ → ℚ) (w : List ℚ) (u : ℕ)
    (hw : finalize_weights M inv val empty tcol comp = some w)
    (huM : u < M) (hnv : u ∉ val) (hu : u ∈ inv ∨ u ∈ empty) :
    w.getD u 0 = 0 := by
  have hz : (if u ∈ inv then (0:ℚ)
      else calculate_weights M inv empty tcol comp u) = 0 := by
    split
    · rfl
    · exact calculate_weights_zero M inv empty tcol comp u hu
  rw [finalize_weights] at hw
  dsimp only at hw
  split at hw
  · injection hw with h
    subst h
    rw [rangeMap_getD M u _ huM]
    rw [hz, zero_div]
  · split at hw
    · exact Option.noConfusion hw
    · injection hw with h
      subst h
      rw [rangeMap_getD M u _ huM]
      rw [if_neg hnv, hz]

/-! ## Concrete instances -/

/-- An empty 3-miner entropy state over `ℚ`. -/
def esQ0 : EntropyState ℚ := ⟨3, 5, 0, [], [], [], [], [], [], []⟩

/-- A small, already-initialised scoring state: 3 miners, 5 days, everything
zero, all tiers 1, date cursor at day 0. -/
def s0 : ScoringState :=
  { num_miners := 3, max_days := 5, current_day := 0, current_date := 0,
    reference_date := 0, last_update_date := some 0,
    clv_scores := fun _ _ => 0, roi_scores := fun _ _ => 0,
    sortino_scores := fun _ _ => 0, amount_wagered := fun _ _ => 0,
    entropy_scores := fun _ _ => 0, tiers := fun _ _ => 1,
    composite_scores := fun _ _ _ => 0,
    invalid_uids := ∅, valid_uids := ∅, init := false, entropy_system := esQ0 }

/-- A wager matrix for 20 miners: miners 0-2 wagered 700 on the current day
and on each of the last 29 days of the window, so they clear the tier-5
requirement (21000 ≥ 20000) but not the tier-6 one (35000). -/
def ceWag : ℕ → ℕ → ℚ := fun m j => if m < 3 ∧ (j = 0 ∨ 16 ≤ j) then 700 else 0

/-- A 20-miner tier column holding two tier-5 members and one tier-6
member. -/
def ceCt0 : List ℕ := [5, 5, 6, 0, 0, 0, 0, 0, 0, 0, 0, 0, 0, 0, 0, 0, 0, 0, 0, 0]

/-! ## Claims -/

/-- C1 (corrected): on a scoring tick whose valid-UID set lies inside
`[0, M)`, if at least one valid UID exists the run returns a weight vector of
length `M` summing to 1; but when the valid set is empty the run aborts with
`ZeroDivisionError` (the `none` result) instead of returning an all-zero
vector. -/
theorem C1_scoring_run_weights (sq : ℚ → ℚ) (date now : ℤ)
    (inv val : Finset ℕ) (preds : List PredRow) (closing : List (List ℚ))
    (results : List (ℕ × ℤ)) (s : ScoringState)
    (hval : val ⊆ Finset.range s.num_miners) :
    (val.Nonempty → ∃ w, scoring_run sq date now inv val preds closing results s
        = some w ∧ w.length = s.num_miners ∧ w.sum = 1) ∧
    (val = ∅ → scoring_run sq date now inv val preds closing results s = none) :=
  finalize_weights_spec s.num_miners inv val _ _ hval

theorem C1_scoring_run_weights_witness :
    ∃ w, scoring_run id 0 0 ∅ {0} [] [] [] s0 = some w
      ∧ w.length = 3 ∧ w.sum = 1 :=
  (C1_scoring_run_weights id 0 0 ∅ {0} [] [] [] s0 (by decide)).1 ⟨0, by decide⟩

set_option maxRecDepth 100000 in
/-- C1 counterexample: a tick with no valid UID returns `none`
(`ZeroDivisionError` at `weights[...] = 1 / len(self.valid_uids)`), not the
all-zero vector the claim promises. -/
theorem C1_empty_valid_counterexample :
    scoring_run id 0 0 {0} ∅ [] [] [] s0 = none := by decide

/-- C2 (confirmed): any weight vector a scoring tick returns assigns weight 0
to every UID of Invalid ∪ Empty (with Empty the in-range UIDs that are
neither valid nor invalid); the final renormalisation puts no mass back on
them. -/
theorem C2_invalid_empty_weight_zero (sq : ℚ → ℚ) (date now : ℤ)
    (inv val : Finset ℕ) (preds : List PredRow) (closing : List (List ℚ))
    (results : List (ℕ × ℤ)) (s : ScoringState) (w : List ℚ) (u : ℕ)
    (hw : scoring_run sq date now inv val preds closing results s = some w)
    (huM : u < s.num_miners) (hnv : u ∉ val)
    (hu : u ∈ inv ∨ u ∈ (Finset.range s.num_miners \ val) \ inv) :
    w.getD u 0 = 0 :=
  finalize_weights_mem_zero s.num_miners inv val _ _ _ w u hw huM hnv hu

set_option maxRecDepth 100000 in
theorem C2_invalid_empty_weight_zero_witness :
    scoring_run id 0 0 {1} {0} [] [] [] s0 = some [1, 0, 0]
      ∧ ([(1 : ℚ), 0, 0]).getD 1 0 = 0 :=
  ⟨by decide,
   C2_invalid_empty_weight_zero id 0 0 {1} {0} [] [] [] s0 [1, 0, 0] 1
     (by decide) (by decide) (by decide) (Or.inl (by decide))⟩

/-- C3 (corrected): after `manage_tiers` the per-tier population bound
`|{uid : tier = t}| ≤ capacity(t)` for `t ∈ {2..6}` holds *provided the
demotion pass already satisfies it*: the promotion, swap, fill and re-stamp
passes preserve the bound, but the demotion cascade itself ignores capacity
and can overfill a tier (see the counterexample). -/
theorem C3_manage_tiers_capacity (M D cd : ℕ) (wag : ℕ → ℕ → ℚ)
    (cs : ℕ → ℕ → ℚ) (inv val : Finset ℕ) (ct : List ℕ)
    (hlen : ct.length = M)
    (hdem : capOK M (demotionStep M D cd wag val ct)) :
    capOK M (manage_tiers_col M D cd wag cs inv val ct) := by
  rw [manage_tiers_col_eq]
  have hd : (demotionStep M D cd wag val ct).length = M := by
    rw [length_demotionStep]; exact hlen
  have hps := promoteSwapStep_capOK M D cd wag cs _ hd hdem
  have hfl := fillLoop_capOK M D cd wag cs _ hps.2 hps.1
  intro t ht
  refine le_trans (tierCount_restamp_le M inv _ t ?_) (hfl.1 t ht)
  have hb := Finset.mem_Icc.mp ht
  omega

set_option maxRecDepth 1000000 in
theorem C3_manage_tiers_capacity_witness :
    capOK 3 (manage_tiers_col 3 5 0 (fun _ _ => 0) (fun _ _ => 0)
      ∅ {0, 1, 2} [2, 2, 2]) :=
  C3_manage_tiers_capacity 3 5 0 (fun _ _ => 0) (fun _ _ => 0) ∅ {0, 1, 2}
    [2, 2, 2] (by decide) (by decide)

set_option maxRecDepth 1000000 in
/-- C3 counterexample: with 20 miners, tier 5 has capacity
`int(20 * 0.1) = 2`, yet demoting the tier-6 member onto two existing tier-5
members leaves three tier-5 members after the whole `manage_tiers` pass: the
demotion cascade never checks capacity. -/
theorem C3_capacity_counterexample :
    ¬ capOK 20 (manage_tiers_col 20 45 0 ceWag (fun _ _ => 0) ∅ {0, 1, 2}
      ceCt0) := by
  decide

/-- A 1-miner, 5-day state whose columns encode their day index
(`clv[m,d] = d + 10`, `roi = d + 20`, `sortino = d + 30`, `entropy = d + 40`,
`composite = d + 50`, `wagered = d + 60`, `tiers[m,d] = d + 1`), so that any
copy between day columns is visible. -/
def s4 : ScoringState :=
  { num_miners := 1, max_days := 5, current_day := 0, current_date := 0,
    reference_date := 0, last_update_date := some 0,
    clv_scores := fun _ d => (d : ℚ) + 10,
    roi_scores := fun _ d => (d : ℚ) + 20,
    sortino_scores := fun _ d => (d : ℚ) + 30,
    amount_wagered := fun _ d => (d : ℚ) + 60,
    entropy_scores := fun _ d => (d : ℚ) + 40,
    tiers := fun _ d => d + 1,
    composite_scores := fun _ d _ => (d : ℚ) + 50,
    invalid_uids := ∅, valid_uids := ∅, init := false, entropy_system := esQ0 }

set_option maxRecDepth 100000 in
/-- C4 (code bug): advancing `s4` by Δ = 2 days (from day 0 to day 2) leaves
intermediate day 1 completely untouched — its clv/roi/entropy/composite and
sortino columns keep their stale values 11/21/41/51/31 instead of receiving
day 0's copies — while the stale day-1 columns are copied onto the *new*
current day 2 (clv 11; tier 2, overwriting the day-0 tier copy 1 that
`advance_day` itself made), and `sortino_scores` is copied nowhere at all.
The claimed downtime carry-forward does not happen; only the
`amount_wagered` zeroing of the new day behaves as described. -/
theorem C4_downtime_divergence :
    (advance_day 2 s4).clv_scores 0 1 = 11 ∧
    (advance_day 2 s4).clv_scores 0 2 = 11 ∧
    (advance_day 2 s4).roi_scores 0 1 = 21 ∧
    (advance_day 2 s4).entropy_scores 0 1 = 41 ∧
    (advance_day 2 s4).composite_scores 0 1 0 = 51 ∧
    (advance_day 2 s4).sortino_scores 0 1 = 31 ∧
    (advance_day 2 s4).sortino_scores 0 2 = 32 ∧
    (advance_day 2 s4).tiers 0 2 = 2 ∧
    s4.tiers 0 0 = 1 ∧ s4.clv_scores 0 0 = 10 ∧
    (advance_day 2 s4).amount_wagered 0 2 = 0 := by
  decide

theorem wagerLoop_cap (cd : ℕ) (preds : List PredRow) (wag : ℕ → ℕ → ℚ)
    (h0 : ∀ u, wag u cd ≤ 1000) :
    ∀ u, wagerLoop cd preds wag u cd ≤ 1000 := by
  rw [wagerLoop]
  refine foldl_preserve (fun w : ℕ → ℕ → ℚ => ∀ u, w u cd ≤ 1000)
    (wagerLoopStep cd) (fun b p hb => ?_) preds wag h0
  intro u
  rw [wagerLoopStep]
  dsimp only
  split
  · split
    · simp only [setCell]
      split
      · linarith
      · exact hb u
    · exact hb u
  · rename_i hcap
    simp only [setCell]
    split
    · linarith [not_lt.mp hcap]
    · exact hb u

/-- C7 (confirmed): over any prediction batch with non-negative wagers, if a
miner's daily wager total is at most 1000 before the batch, it is still at
most 1000 afterwards: a row that would push the total past the cap adds only
the remaining slack (possibly nothing), every other row adds its full
wager. -/
theorem C7_wager_cap (sq : ℚ → ℚ) (now : ℤ) (preds : List PredRow)
    (closing : List (List ℚ)) (results : List (ℕ × ℤ)) (s : ScoringState)
    (hnn : ∀ p ∈ preds, 0 ≤ p.wager)
    (h0 : ∀ u, s.amount_wagered u s.current_day ≤ 1000) :
    ∀ u, (update_raw_scores sq now preds closing results s).amount_wagered
        u s.current_day ≤ 1000 := by
  have he : (update_raw_scores sq now preds closing results s).amount_wagered
      = wagerLoop s.current_day preds s.amount_wagered := rfl
  rw [he]
  exact wagerLoop_cap s.current_day preds s.amount_wagered h0

/-- Ten rows of wager 200 from miner 0 on game 5. -/
def predsW : List PredRow := List.replicate 10 ⟨0, 5, 0, 2, 0, 200⟩

set_option maxRecDepth 100000 in
theorem C7_wager_cap_witness :
    (update_raw_scores id 0 predsW [] [] s0).amount_wagered 0 0 = 1000 ∧
    (update_raw_scores id 0 predsW [] [] s0).amount_wagered 0 0 ≤ 1000 :=
  ⟨by decide,
   C7_wager_cap id 0 predsW [] [] s0 (by decide)
     (fun u => by show (0 : ℚ) ≤ 1000; norm_num) 0⟩

theorem handle_downtime_last_update (dp : ℕ) (s : ScoringState) :
    (handle_downtime dp s).last_update_date = s.last_update_date := by
  rw [handle_downtime]
  refine foldl_preserve
    (fun st : ScoringState => st.last_update_date = s.last_update_date)
    _ (fun b i hb => ?_) _ _ rfl
  exact hb

theorem advance_day_last_update (today : ℤ) (s : ScoringState) :
    (advance_day today s).last_update_date = some today
      ∨ advance_day today s = s := by
  rw [advance_day]
  cases hlu : s.last_update_date with
  | none => left; rfl
  | some lu =>
    dsimp only
    split
    · left
      split
      · rw [handle_downtime_last_update]
      · rfl
    · right; rfl

/-- C9 (confirmed): when `last_update_date` is set and `today` is not past
it (Δ ≤ 0), `advance_day` returns the state unchanged; and advancing is
idempotent — advancing N days and then 0 more days equals advancing N days
once. -/
theorem C9_advance_day_noop (today : ℤ) (s : ScoringState) :
    (∀ lu, s.last_update_date = some lu → today ≤ lu →
      advance_day today s = s) ∧
    advance_day today (advance_day today s) = advance_day today s := by
  have hnoop : ∀ (s' : ScoringState) (lu : ℤ), s'.last_update_date = some lu →
      today ≤ lu → advance_day today s' = s' := by
    intro s' lu hlu hle
    rw [advance_day, hlu]
    dsimp only
    rw [if_neg (by omega)]
  refine ⟨hnoop s, ?_⟩
  rcases advance_day_last_update today s with h | h
  · exact hnoop _ today h le_rfl
  · rw [h]
    exact h

theorem C9_advance_day_noop_witness :
    advance_day 0 s0 = s0 ∧
      advance_day 0 (advance_day 0 s0) = advance_day 0 s0 :=
  ⟨(C9_advance_day_noop 0 s0).1 0 rfl le_rfl, (C9_advance_day_noop 0 s0).2⟩

/-- C5 (corrected): when the target outcome pool is *non-empty* but contains
no entries from other miners, both the time and the wager sub-similarity
default to 1.0 and the similarity is (1 + 1)/2 = 1; but for the first
prediction placed into an **empty** pool the function returns 0.0 through
its early `if not pool` exit, not 1.0 (see the counterexample). -/
theorem C5_similarity_own_pool (es : EntropyState ℝ) (g o m : ℕ)
    (odds wager : ℝ) (d : ℤ)
    (hne : poolPredictionsAt es g o ≠ [])
    (hown : ∀ e ∈ poolPredictionsAt es g o, e.miner_uid = m) :
    calculate_prediction_similarity es g o m odds wager d = 1 := by
  cases hp : poolPredictionsAt es g o with
  | nil => exact absurd hp hne
  | cons p ps =>
    rw [calculate_prediction_similarity, hp]
    dsimp only
    have hown' : ∀ e ∈ p :: ps, e.miner_uid = m := hp ▸ hown
    have hf : (p :: ps).filter (fun e => e.miner_uid ≠ m) = [] := by
      rw [List.filter_eq_nil_iff]
      intro e he
      simp [hown' e he]
    rw [hf]
    simp only [List.map_nil]
    norm_num

/-- A pool entry of miner 7. -/
def e7 : PoolEntry ℝ := ⟨some 1, 7, 2, 100, 0, 0⟩

/-- Game 0, outcome 0, already holding one prediction of miner 7. -/
def esR1 : EntropyState ℝ :=
  ⟨3, 5, 0, [], [], [], [(0, [(0, ⟨[e7], 1⟩)])], [], [], []⟩

theorem C5_similarity_own_pool_witness :
    calculate_prediction_similarity esR1 0 0 7 2 100 0 = 1 :=
  C5_similarity_own_pool esR1 0 0 7 2 100 0
    (List.cons_ne_nil e7 [])
    (by
      intro e he
      have he' : e ∈ [e7] := he
      rw [List.mem_singleton] at he'
      subst he'
      rfl)

/-- A 3-miner real-valued entropy state holding game 0 with a single outcome
pool that has no predictions yet. -/
def esR2 : EntropyState ℝ :=
  ⟨3, 5, 0, [], [], [], [(0, [(0, ⟨[], 1⟩)])], [], [], []⟩

/-- C5 counterexample: the first prediction placed into an empty pool is
scored with similarity 0.0 (the early return), which is not the claimed
1.0. -/
theorem C5_empty_pool_counterexample :
    calculate_prediction_similarity esR2 0 0 7 2 100 0 = 0
      ∧ (0 : ℝ) ≠ 1 := ⟨rfl, by norm_num⟩

/-- C8 (corrected): a save/load round trip restores the entropy state only up
to the `prediction_id` of every pool entry, which `save_state` does not
serialise: loading a saved snapshot yields `erase_prediction_ids` of the
state (and saving that again reproduces the identical snapshot).  The
hypothesis holds for every state this code can produce, since nothing ever
inserts into the inner `miner_predictions` maps. -/
theorem C8_round_trip (es : EntropyState ℚ)
    (hmp : ∀ p ∈ es.miner_predictions, p.2 = []) :
    load_state es (save_state es) = some (erase_prediction_ids es) ∧
    save_state (erase_prediction_ids es) = save_state es := by
  have hguard : (save_state es).miner_predictions.all
      (fun p => p.2.isEmpty) = true := by
    rw [List.all_eq_true]
    intro p hp
    rw [hmp p hp]
    rfl
  constructor
  · rw [load_state, if_pos hguard]
    simp [save_state, erase_prediction_ids, List.map_map, Function.comp]
  · simp [save_state, erase_prediction_ids, List.map_map, Function.comp]

/-- A 3-miner entropy state whose single pool entry carries
`prediction_id = 42`. -/
def esQ1 : EntropyState ℚ :=
  ⟨3, 5, 0, [], [], [], [(0, [(0, ⟨[⟨some 42, 1, 2, 50, 0, 1/2⟩], 1⟩)])],
   [], [], []⟩

theorem C8_round_trip_witness :
    load_state esQ1 (save_state esQ1) = some (erase_prediction_ids esQ1) ∧
    save_state (erase_prediction_ids esQ1) = save_state esQ1 :=
  C8_round_trip esQ1 (by decide)

/-- C8 counterexample: the round trip is **not** the identity the claim
promises — the entry's `prediction_id` (42) is dropped by `save_state`, so
the reloaded state differs from the saved one. -/
theorem C8_round_trip_counterexample :
    load_state esQ1 (save_state esQ1) ≠ some esQ1 := by decide

theorem mem_aupdate {β : Type} (k : ℕ) (f : β → β) (l : List (ℕ × β))
    (q : ℕ × β) (hq : q ∈ aupdate k f l) :
    q ∈ l ∨ ∃ p ∈ l, q = (p.1, f p.2) := by
  rw [aupdate] at hq
  obtain ⟨p, hp, hpq⟩ := List.mem_map.mp hq
  by_cases hk : p.1 = k
  · rw [if_pos hk] at hpq
    exact Or.inr ⟨p, hp, hpq.symm⟩
  · rw [if_neg hk] at hpq
    exact Or.inl (hpq ▸ hp)

theorem entropy_contribution_bounds (es : EntropyState ℝ) (g o m : ℕ)
    (odds wager : ℝ) (d : ℤ) :
    |calculate_entropy_contribution es g o m odds wager d| ≤ 1 := by
  rw [calculate_entropy_contribution]
  rw [abs_le]
  constructor
  · exact le_max_right _ _
  · exact max_le (min_le_right _ _) (by norm_num)

/-- C6 (confirmed): the entropy contribution `add_prediction` stores is
`clamp(0.6·similarity + 0.4·contrarian, −1, 1)` and hence lies in [−1, 1];
consequently, whatever the input, if every pool entry's stored contribution
was within [−1, 1] before the call, that still holds for every pool entry
after it. -/
theorem C6_contribution_in_unit_interval (es : EntropyState ℝ)
    (pid m g o : ℕ) (wager odds : ℝ) (d : ℤ)
    (h : ∀ e, entryMem es e → |e.entropy_contribution| ≤ 1) :
    ∀ e, entryMem (add_prediction es pid m g o wager odds d) e →
      |e.entropy_contribution| ≤ 1 := by
  intro e he
  rw [add_prediction] at he
  cases hga : alookup g es.game_pools with
  | none => rw [hga] at he; exact h e he
  | some ops =>
    rw [hga] at he
    dsimp only at he
    cases hoo : alookup o ops with
    | none => rw [hoo] at he; exact h e he
    | some pool0 =>
      rw [hoo] at he
      dsimp only at he
      by_cases hcl : g ∈ es.closed_games
      · rw [if_pos hcl] at he; exact h e he
      · rw [if_neg hcl] at he
        obtain ⟨g', ops', o', pool', hg', ho', hmem⟩ := he
        rcases mem_aupdate g _ es.game_pools (g', ops') hg' with hin | ⟨p, hp, hpe⟩
        · exact h e ⟨g', ops', o', pool', hin, ho', hmem⟩
        · injection hpe with h1 h2
          subst h1
          subst h2
          have ho'' : (o', pool') ∈ aupdate o
              (fun pool => { pool with predictions := pool.predictions ++
                [⟨some pid, m, odds, wager, d,
                  calculate_entropy_contribution es g o m odds wager d⟩] })
              p.2 := ho'
          rcases mem_aupdate o _ p.2 (o', pool') ho'' with hin2 | ⟨q, hq, hqe⟩
          · exact h e ⟨p.1, p.2, o', pool', hp, hin2, hmem⟩
          · injection hqe with h3 h4
            subst h3
            subst h4
            have hmem' : e ∈ q.2.predictions ++
                [⟨some pid, m, odds, wager, d,
                  calculate_entropy_contribution es g o m odds wager d⟩] := hmem
            rcases List.mem_append.mp hmem' with hold | hnew
            · exact h e ⟨p.1, p.2, q.1, q.2, hp, hq, hold⟩
            · rw [List.mem_singleton] at hnew
              subst hnew
              exact entropy_contribution_bounds es g o m odds wager d

/-- The contribution computed for the first prediction into `esR2`'s empty
pool. -/
noncomputable def ctb0 : ℝ := calculate_entropy_contribution esR2 0 0 7 2 100 0

/-- The pool entry `add_prediction` appends for that prediction. -/
noncomputable def e0 : PoolEntry ℝ := ⟨some 1, 7, 2, 100, 0, ctb0⟩

theorem C6_contribution_in_unit_interval_witness :
    |e0.entropy_contribution| ≤ 1 := by
  refine C6_contribution_in_unit_interval esR2 1 7 0 0 100 2 0 ?_ e0 ?_
  · rintro e ⟨g, ops, o, pool, hg, ho, hmem⟩
    have hg' : (g, ops) ∈ [(0, [(0, (⟨[], 1⟩ : Pool ℝ))])] := hg
    rw [List.mem_singleton] at hg'
    injection hg' with h1 h2
    subst h1
    subst h2
    have ho' : (o, pool) ∈ [(0, (⟨[], 1⟩ : Pool ℝ))] := ho
    rw [List.mem_singleton] at ho'
    injection ho' with h3 h4
    subst h3
    subst h4
    exact absurd hmem (List.not_mem_nil e)
  · exact ⟨0, [(0, ⟨[e0], 1⟩)], 0, ⟨[e0], 1⟩,
      List.mem_singleton.mpr rfl, List.mem_singleton.mpr rfl,
      List.mem_singleton.mpr rfl⟩

theorem alookup_aupdate_self {β : Type} (k : ℕ) (f : β → β)
    (l : List (ℕ × β)) :
    alookup k (aupdate k f l) = (alookup k l).map f := by
  induction l with
  | nil => rfl
  | cons p ps ih =>
    rw [aupdate, List.map_cons]
    by_cases hk : k = p.1
    · rw [if_pos hk.symm]
      rw [alookup, if_pos hk, alookup, if_pos hk]
      rfl
    · rw [if_neg (fun e => hk e.symm)]
      rw [alookup, if_neg hk, alookup, if_neg hk]
      rw [aupdate] at ih
      exact ih

theorem alookup_append_self {β : Type} (k : ℕ) (b : β) (l : List (ℕ × β))
    (h : alookup k l = none) : alookup k (l ++ [(k, b)]) = some b := by
  induction l with
  | nil => simp [alookup]
  | cons p ps ih =>
    rw [alookup] at h
    rw [List.cons_append, alookup]
    by_cases hk : k = p.1
    · rw [if_pos hk] at h
      exact absurd h (by simp)
    · rw [if_neg hk] at h ⊢
      exact ih h

theorem alookup_filter_ne {β : Type} (k h : ℕ) (l : List (ℕ × β))
    (hne : k ≠ h) :
    alookup k (l.filter (fun p => p.1 ≠ h)) = alookup k l := by
  induction l with
  | nil => rfl
  | cons p ps ih =>
    simp only [List.filter_cons]
    split
    · rw [alookup, alookup]
      by_cases hk : k = p.1
      · rw [if_pos hk, if_pos hk]
      · rw [if_neg hk, if_neg hk]
        exact ih
    · rename_i hdrop
      have hph : p.1 = h := by simpa using hdrop
      have hk : ¬ k = p.1 := by rw [hph]; exact hne
      rw [alookup, if_neg hk]
      exact ih

theorem alookup_filter_self {β : Type} (k : ℕ) (l : List (ℕ × β)) :
    alookup k (l.filter (fun p => p.1 ≠ k)) = none := by
  induction l with
  | nil => rfl
  | cons p ps ih =>
    simp only [List.filter_cons]
    split
    · rename_i hkeep
      have hpk : p.1 ≠ k := by simpa using hkeep
      rw [alookup, if_neg (fun e => hpk e.symm)]
      exact ih
    · exact ih

/-- After the reset sweep has processed game `g`, every outcome pool of `g`
holds no predictions. -/
def poolsCleared (st : EntropyState ℚ) (g : ℕ) : Prop :=
  ∀ ops, alookup g st.game_pools = some ops → ∀ op ∈ ops, op.2.predictions = []

theorem sweepStep_clears (now : ℤ) (st : EntropyState ℚ) (g : ℕ) (tc : ℤ)
    (htc : alookup g st.game_close_times = some tc) (hold : 86400 < now - tc)
    (hnd : st.closed_games.Nodup) :
    poolsCleared (sweepStep now st g) g ∧
      g ∉ (sweepStep now st g).closed_games ∧
      alookup g (sweepStep now st g).game_close_times = none := by
  rw [sweepStep, htc]
  dsimp only
  rw [if_pos hold]
  refine ⟨?_, ?_, ?_⟩
  · cases hgp : alookup g st.game_pools with
    | some ops0 =>
      dsimp only
      intro ops hops op hop
      have hops' : alookup g (aupdate g
          (fun ops => ops.map (fun op => (op.1, (⟨[], 0⟩ : Pool ℚ))))
          st.game_pools) = some ops := hops
      rw [alookup_aupdate_self, hgp] at hops'
      have hops2 : ops0.map (fun op => (op.1, (⟨[], 0⟩ : Pool ℚ))) = ops :=
        Option.some_injective _ hops'
      subst hops2
      obtain ⟨x, _, hx⟩ := List.mem_map.mp hop
      rw [← hx]
    | none =>
      dsimp only
      intro ops hops op hop
      have hops' : alookup g (st.game_pools ++ [(g, [])]) = some ops := hops
      rw [alookup_append_self g _ st.game_pools hgp] at hops'
      have hops2 : ([] : List (ℕ × Pool ℚ)) = ops :=
        Option.some_injective _ hops'
      subst hops2
      exact absurd hop (List.not_mem_nil op)
  · intro hm
    have hm' : g ∈ st.closed_games.erase g := hm
    exact absurd rfl ((hnd.mem_erase_iff).mp hm').1
  · exact alookup_filter_self g st.game_close_times

theorem sweepStep_preserves (now : ℤ) (st : EntropyState ℚ) (a g : ℕ)
    (hga : g ≠ a)
    (h1 : poolsCleared st g) (h2 : g ∉ st.closed_games)
    (h3 : alookup g st.game_close_times = none) :
    poolsCleared (sweepStep now st a) g ∧
      g ∉ (sweepStep now st a).closed_games ∧
      alookup g (sweepStep now st a).game_close_times = none := by
  rw [sweepStep]
  cases hca : alookup a st.game_close_times with
  | none => exact ⟨h1, h2, h3⟩
  | some ct =>
    dsimp only
    split
    · refine ⟨?_, fun hm => h2 (List.mem_of_mem_erase hm), ?_⟩
      · cases hap : alookup a st.game_pools with
        | some ops0 =>
          dsimp only
          intro ops hops op hop
          have hops' : alookup g (aupdate a
              (fun ops => ops.map (fun op => (op.1, (⟨[], 0⟩ : Pool ℚ))))
              st.game_pools) = some ops := hops
          rw [alookup_aupdate_ne a g _ st.game_pools hga] at hops'
          exact h1 ops hops' op hop
        | none =>
          dsimp only
          intro ops hops op hop
          have hops' : alookup g (st.game_pools ++ [(a, [])]) = some ops := hops
          rw [alookup_append_of_ne g a _ st.game_pools hga] at hops'
          exact h1 ops hops' op hop
      · exact (alookup_filter_ne g a st.game_close_times hga).trans h3
    · exact ⟨h1, h2, h3⟩

theorem sweep_phase1 (now : ℤ) (g : ℕ) (tc : ℤ) (l : List ℕ) (hgl : g ∉ l) :
    ∀ st : EntropyState ℚ, alookup g st.game_close_times = some tc →
      st.closed_games.Nodup →
      alookup g (l.foldl (sweepStep now) st).game_close_times = some tc ∧
        (l.foldl (sweepStep now) st).closed_games.Nodup := by
  induction l with
  | nil => intro st h1 h2; exact ⟨h1, h2⟩
  | cons a as ih =>
    intro st h1 h2
    have hga : g ≠ a := fun e => hgl (e ▸ List.mem_cons_self a as)
    have hstep : alookup g (sweepStep now st a).game_close_times = some tc ∧
        (sweepStep now st a).closed_games.Nodup := by
      rw [sweepStep]
      cases hca : alookup a st.game_close_times with
      | none => exact ⟨h1, h2⟩
      | some ct =>
        dsimp only
        split
        · exact ⟨(alookup_filter_ne g a st.game_close_times hga).trans h1,
            h2.erase a⟩
        · exact ⟨h1, h2⟩
    exact ih (fun hm => hgl (List.mem_cons_of_mem a hm)) _ hstep.1 hstep.2

theorem sweep_phase3 (now : ℤ) (g : ℕ) (l : List ℕ) (hgl : g ∉ l) :
    ∀ st : EntropyState ℚ, poolsCleared st g → g ∉ st.closed_games →
      alookup g st.game_close_times = none →
      poolsCleared (l.foldl (sweepStep now) st) g ∧
        g ∉ (l.foldl (sweepStep now) st).closed_games := by
  induction l with
  | nil => intro st h1 h2 _; exact ⟨h1, h2⟩
  | cons a as ih =>
    intro st h1 h2 h3
    have hga : g ≠ a := fun e => hgl (e ▸ List.mem_cons_self a as)
    obtain ⟨q1, q2, q3⟩ := sweepStep_preserves now st a g hga h1 h2 h3
    exact ih (fun hm => hgl (List.mem_cons_of_mem a hm)) _ q1 q2 q3

theorem accumulateEbdr_single_cleared (st : EntropyState ℚ) (g : ℕ)
    (h : poolsCleared st g) : ∀ u, accumulateEbdr st [g] u = 0 := by
  intro u
  rw [accumulateEbdr]
  dsimp only [List.foldl_cons, List.foldl_nil]
  cases hgp : alookup g st.game_pools with
  | none => rfl
  | some ops =>
    dsimp only
    have hops := h ops hgp
    have hfold : ops.foldl
        (fun v op => op.2.predictions.foldl
          (fun v e => upd1 v e.miner_uid (v e.miner_uid + e.entropy_contribution)) v)
        (fun _ => 0) = (fun _ => (0 : ℚ)) := by
      refine foldl_preserve_mem (fun v : ℕ → ℚ => v = fun _ => (0 : ℚ)) _ ops
        ?_ _ rfl
      intro b op hop hb
      rw [hops op hop]
      exact hb
    rw [hfold]

/-- C10 (confirmed): `get_current_ebdr_scores` accumulates every listed pool
entry into the returned score vector *before* the reset sweep runs: the
returned vector is the (normalised) accumulation over the pre-sweep state,
while in the state the call returns a listed game `g` closed more than one
day earlier has been removed from the closed set and its pools cleared, so
the very next accumulation of `g` contributes nothing. -/
theorem C10_accumulate_before_sweep (now current_date : ℤ) (current_day : ℕ)
    (gids : List ℕ) (es : EntropyState ℚ) (g : ℕ) (tc : ℤ)
    (hg : g ∈ es.closed_games) (hnd : es.closed_games.Nodup)
    (htc : alookup g es.game_close_times = some tc)
    (hold : 86400 < now - tc) :
    (get_current_ebdr_scores now current_date current_day gids es).1
        = (if 0 < vecMax es.num_miners (accumulateEbdr es gids)
           then fun u => accumulateEbdr es gids u
                / vecMax es.num_miners (accumulateEbdr es gids)
           else accumulateEbdr es gids) ∧
    g ∉ (get_current_ebdr_scores now current_date current_day gids
        es).2.closed_games ∧
    (∀ u, accumulateEbdr
        (get_current_ebdr_scores now current_date current_day gids es).2
        [g] u = 0) := by
  obtain ⟨l1, l2, hsplit⟩ := List.append_of_mem hg
  have hnd' : (l1 ++ g :: l2).Nodup := hsplit ▸ hnd
  obtain ⟨hnd1, hnd2, hdisj⟩ := List.nodup_append.mp hnd'
  have hg1 : g ∉ l1 := fun hm => hdisj hm (List.mem_cons_self g l2)
  have hg2 : g ∉ l2 := (List.nodup_cons.mp hnd2).1
  have hsnd : (get_current_ebdr_scores now current_date current_day gids es).2
      = l2.foldl (sweepStep now)
          (sweepStep now (l1.foldl (sweepStep now) es) g) := by
    show reset_predictions_for_closed_games now es = _
    rw [reset_predictions_for_closed_games, hsplit, List.foldl_append,
      List.foldl_cons]
  have hph1 := sweep_phase1 now g tc l1 hg1 es htc hnd
  have hcl := sweepStep_clears now (l1.foldl (sweepStep now) es) g tc
    hph1.1 hold hph1.2
  have hph3 := sweep_phase3 now g l2 hg2 _ hcl.1 hcl.2.1 hcl.2.2
  refine ⟨rfl, ?_, ?_⟩
  · rw [hsnd]
    exact hph3.2
  · intro u
    rw [hsnd]
    exact accumulateEbdr_single_cleared _ g hph3.1 u

/-- A 3-miner entropy state: game 5 was closed at time 0 and still holds one
prediction of miner 1 with entropy contribution 3/4. -/
def esQ2 : EntropyState ℚ :=
  ⟨3, 5, 0, [], [], [], [(5, [(0, ⟨[⟨some 9, 1, 2, 50, 0, 3/4⟩], 1⟩)])], [],
   [5], [(5, 0)]⟩

theorem C10_accumulate_before_sweep_witness :
    (get_current_ebdr_scores 100000 0 0 [5] esQ2).1
        = (if 0 < vecMax esQ2.num_miners (accumulateEbdr esQ2 [5])
           then fun u => accumulateEbdr esQ2 [5] u
                / vecMax esQ2.num_miners (accumulateEbdr esQ2 [5])
           else accumulateEbdr esQ2 [5]) ∧
    5 ∉ (get_current_ebdr_scores 100000 0 0 [5] esQ2).2.closed_games ∧
    accumulateEbdr (get_current_ebdr_scores 100000 0 0 [5] esQ2).2 [5] 1 = 0 := by
  obtain ⟨w1, w2, w3⟩ := C10_accumulate_before_sweep 100000 0 0 [5] esQ2 5 0
    (by decide) (by decide) (by decide) (by decide)
  exact ⟨w1, w2, w3 1⟩
